import Mathlib

/-!
Verification of the possum front end (lexer + expression parser).

The development shallowly embeds the Rust sources:
  * `src/lexer.rs` — a maximal-munch tokenizer built on `logos`, with eager
    literal decoding (integers in four radices, floats, strings, chars,
    byte strings, bytes) and a whitespace-skipping rule.
  * `src/ast.rs`   — a precedence-climbing recursive-descent expression
    parser with single-token lookahead and `Invalid`-node error recovery.

Modelling conventions:
  * Rust `usize`/`u64` values are `Nat`; overflow points are modelled with
    explicit `< 2 ^ 64` checks exactly where the Rust code can fail.
  * `logos`' generated lexer is embedded as an explicit maximal-munch loop:
    at each position every lexical rule reports how far it can match, the
    longest match wins, and ties are broken by rule order with the
    generic identifier rule last (the tie-breaking `logos` performs via
    priorities: fixed token text beats the identifier pattern).
  * A matcher receives the current character `c` and the rest of the input
    `cs` and returns `some extra` when it matches `1 + extra` characters
    (every lexical rule of the source matches at least one character).
  * The parser's shared atomic cursor (`Tokens`) is embedded by threading
    the read position explicitly, which is the behaviour the relaxed
    atomic realizes in the strictly sequential Rust code.
  * `f64::from_str` is embedded as its documented grammar acceptance test
    (`rustFloatValid`); the claims only concern success/failure, never
    float arithmetic, and a float value is represented by the text parsed.
-/

namespace Possum

/-- Half-open byte range `Span(start, end)` from the source (`lexer::Span`). -/
structure Span where
  start : Nat
  stop : Nat
deriving DecidableEq, Repr

/-- Lexing error (`lexer::Error`). The payloads of `InvalidInteger` and
`InvalidFloat` (the `std` parse errors) carry no information the program
inspects, so they are dropped; `InvalidEscape` keeps its offending text. -/
inductive LexError where
  | InvalidToken
  | InvalidInteger
  | InvalidFloat
  | InvalidEscape (s : String)
deriving DecidableEq, Repr

/-- Scalar (textual) token kinds (`lexer::Scalar`), in source declaration
order. `Error` is the `logos` error/skip variant: its regex is the
whitespace rule (attached with `logos::skip`), and unmatched input
surfaces as this variant. -/
inductive Scalar where
  | Error
  | LeftParen
  | RightParen
  | LeftBrace
  | RightBrace
  | LeftBracket
  | RightBracket
  | Plus
  | Minus
  | Star
  | Slash
  | Modulo
  | Bar
  | Ampersand
  | Hat
  | Dot
  | Comma
  | Underscore
  | Assign
  | Bang
  | Question
  | Tilde
  | Colon
  | Semicolon
  | Or
  | And
  | PlusAssign
  | MinusAssign
  | TimesAssign
  | DivAssign
  | ModuloAssign
  | OrAssign
  | AndAssign
  | XorAssign
  | Path
  | Range
  | Equal
  | NotEqual
  | GreaterEqual
  | LessEqual
  | Greater
  | Less
  | Let
  | Const
  | Global
  | Fn
  | Struct
  | If
  | Else
  | Loop
  | For
  | In
  | Mut
  | Import
  | Export
  | Use
  | Type
  | Constraint
  | Is
  | Return
  | Break
  | Continue
  | Comment
  | IntegerLiteral
  | HexIntegerLiteral
  | OctIntegerLiteral
  | BinIntegerLiteral
  | FloatLiteral
  | TrueLiteral
  | FalseLiteral
  | StringLiteral
  | CharLiteral
  | ByteStringLiteral
  | ByteLiteral
  | Identifier
deriving DecidableEq, Repr

/-- Decoded literal token (`lexer::Literal`). `Integer` is the Rust `u64`
(its constructions are guarded by `< 2 ^ 64`); `Float` is represented by
the exact text handed to `f64::from_str` (underscores already stripped). -/
inductive Literal where
  | Integer (n : Nat)
  | Float (text : String)
  | Bool (b : Bool)
  | String (s : String)
  | Char (c : Char)
  | ByteString (bs : List Nat)
  | Byte (b : Nat)
deriving DecidableEq, Repr

/-- Payload of a token (`lexer::Token<'a>` in the lexer, re-exported to the
parser as `TokenType`): scalar tag, decoded literal, or identifier slice. -/
inductive TokenType where
  | Scalar (s : Scalar)
  | Literal (l : Literal)
  | Identifier (i : String)
deriving DecidableEq, Repr

/-- A token paired with its span, as the parser consumes it
(`Token { ty, span }` in `ast.rs`). -/
structure Token where
  ty : TokenType
  span : Span
deriving DecidableEq, Repr

/-! ### Character classes of the lexical rules -/

/-- Class `[0-9]`. -/
def isDecDigit (c : Char) : Bool := 48 ≤ c.toNat && c.toNat ≤ 57

/-- Class `[A-Fa-f0-9]`. -/
def isHexDigit (c : Char) : Bool :=
  isDecDigit c || (97 ≤ c.toNat && c.toNat ≤ 102) || (65 ≤ c.toNat && c.toNat ≤ 70)

/-- Class `[0-7]`. -/
def isOctDigit (c : Char) : Bool := 48 ≤ c.toNat && c.toNat ≤ 55

/-- Class `[01]`. -/
def isBinDigit (c : Char) : Bool := 48 ≤ c.toNat && c.toNat ≤ 49

/-- Class `[A-Za-z]`. -/
def isLetter (c : Char) : Bool :=
  (65 ≤ c.toNat && c.toNat ≤ 90) || (97 ≤ c.toNat && c.toNat ≤ 122)

/-- Class `[A-Za-z0-9_]`. -/
def isWordChar (c : Char) : Bool := isLetter c || isDecDigit c || c = '_'

/-- Class `[ \n\t\r]` (the whitespace rule's alphabet). -/
def isWsChar (c : Char) : Bool := c = ' ' || c = '\n' || c = '\t' || c = '\r'

/-- The single-quote character, which delimits char and byte literals. -/
def quoteChar : Char := Char.ofNat 39

/-- The opening curly brace (used by the `\u` escape form). -/
def lbraceChar : Char := Char.ofNat 123

/-- The closing curly brace (used by the `\u` escape form). -/
def rbraceChar : Char := Char.ofNat 125

/-- ASCII char in `[\x00-\x7F]` other than `"` (byte-string content class
`[\x00-\x21\x23-\x7F]`). -/
def isByteStrChar (c : Char) : Bool := c.toNat ≤ 127 && c ≠ '"'

/-- ASCII char in `[\x00-\x7F]` other than `'` (byte-literal content class
`[\x00-\x26\x28-\x7F]`). -/
def isByteLitChar (c : Char) : Bool := c.toNat ≤ 127 && c ≠ quoteChar

/-! ### Rule matchers

A matcher has type `Char → List Char → Option Nat`: given the character at
the current position and the remaining input, it returns `some extra` when
the rule matches this character plus `extra` following ones (its longest
match, as the `logos` DFA computes). -/

/-- Matcher for a fixed token text (`#[token("...")]`). -/
def matchTok (s : String) (c : Char) (cs : List Char) : Option Nat :=
  match s.data with
  | [] => none
  | t :: ts => if c = t ∧ ts.isPrefixOf cs then some ts.length else none

/-- Matcher for the whitespace rule `[ \n\t\r]+`. -/
def matchWs (c : Char) (cs : List Char) : Option Nat :=
  if isWsChar c then some (cs.takeWhile isWsChar).length else none

/-- Longest match of `.*[\n\r]` (the comment body after `//`): `.` matches
anything but `\n`, so the match extends to the first `\n` if any, and
otherwise to the last `\r` seen, if any. -/
def commentTail : List Char → Nat → Option Nat → Option Nat
  | [], _, best => best
  | c :: rest, i, best =>
    if c = '\n' then some (i + 1)
    else if c = '\r' then commentTail rest (i + 1) (some (i + 1))
    else commentTail rest (i + 1) best

/-- Matcher for `//.*[\n\r]` (`Scalar::Comment`). -/
def matchComment (c : Char) (cs : List Char) : Option Nat :=
  match c, cs with
  | '/', '/' :: rest => (commentTail rest 0 none).map (· + 1)
  | _, _ => none

/-- Longest match of `(_?[0-9])*` (continuation of a decimal digit run,
underscore separators allowed between digits). -/
def decTail : List Char → Nat
  | '_' :: c :: rest => if isDecDigit c then 2 + decTail rest else 0
  | c :: rest => if isDecDigit c then 1 + decTail rest else 0
  | [] => 0

/-- Longest match of `(_?h)*` for a digit class `h` (hex/oct/bin runs). -/
def radixTail (h : Char → Bool) : List Char → Nat
  | '_' :: c :: rest => if h c then 2 + radixTail h rest else 0
  | c :: rest => if h c then 1 + radixTail h rest else 0
  | [] => 0

/-- Matcher for `[0-9](_?[0-9])*` (`Scalar::IntegerLiteral`). -/
def matchDecInt (c : Char) (cs : List Char) : Option Nat :=
  if isDecDigit c then some (decTail cs) else none

/-- Matcher for `0[Xx]h(_?h)*`-shaped radix literals, parameterized by the
prefix letters and digit class. -/
def matchRadixInt (p q : Char) (h : Char → Bool) (c : Char) (cs : List Char) :
    Option Nat :=
  match cs with
  | x :: d :: rest =>
    if c = '0' ∧ (x = p ∨ x = q) ∧ h d then some (2 + radixTail h rest) else none
  | _ => none

/-- Matcher for
`[0-9](_?[0-9])*\.[0-9](_?[0-9])*([Ee][+-][0-9](_?[0-9])*)?`
(`Scalar::FloatLiteral`): integer part, mandatory `.` and fraction part,
optional exponent with mandatory sign. -/
def matchFloat (c : Char) (cs : List Char) : Option Nat :=
  if isDecDigit c then
    let k1 := decTail cs
    match cs.drop k1 with
    | '.' :: d2 :: rest2 =>
      if isDecDigit d2 then
        let k2 := decTail rest2
        match rest2.drop k2 with
        | e :: s :: d3 :: rest3 =>
          if (e = 'e' ∨ e = 'E') ∧ (s = '+' ∨ s = '-') ∧ isDecDigit d3 then
            some (k1 + 2 + k2 + 3 + decTail rest3)
          else some (k1 + 2 + k2)
        | _ => some (k1 + 2 + k2)
      else none
    | _ => none
  else none

/-- Longest match of `(\\"|[^"])*"` scanning for a closing quote, for a
content class `cl` (`[^"]` for strings, the ASCII class for byte strings):
returns the number of characters consumed including the closing quote. -/
def strBody (cl : Char → Bool) : List Char → Option Nat
  | [] => none
  | '"' :: _ => some 1
  | '\\' :: '"' :: rest =>
    if cl '\\' then
      match strBody cl rest with
      | some n => some (n + 2)
      | none => some 2
    else none
  | c :: rest => if cl c then (strBody cl rest).map (· + 1) else none

/-- Matcher for `"(\\"|[^"])*"` (`Scalar::StringLiteral`). -/
def matchString (c : Char) (cs : List Char) : Option Nat :=
  if c = '"' then strBody (fun x => x ≠ '"') cs else none

/-- Scan of `[A-Fa-f0-9]*\}` inside a `\u{...}` escape: number of
characters up to and including the closing brace. -/
def uniTail : List Char → Option Nat
  | [] => none
  | c :: rest =>
    if c = rbraceChar then some 1
    else if isHexDigit c then (uniTail rest).map (· + 1)
    else none

/-- Longest match of the char-literal body
`(\\'|\\x[0-7][A-Fa-f0-9]|\\u\{[A-Fa-f0-9]+\}|\\?[^'])'` followed by the
closing quote, with `uni`/`cl` selecting the unicode alternative and the
plain-character class (shared by `CharLiteral` and `ByteLiteral`).
Returns characters consumed after the opening quote, including the
closing quote. -/
def charBody (uni : Bool) (cl : Char → Bool) (cs : List Char) : Option Nat :=
  let plain : Option Nat :=
    match cs with
    | c1 :: q :: _ => if cl c1 ∧ c1 ≠ quoteChar ∧ q = quoteChar then some 2 else none
    | _ => none
  let esc : Option Nat :=
    match cs with
    | '\\' :: c2 :: q :: _ =>
      if cl c2 ∧ c2 ≠ quoteChar ∧ q = quoteChar then some 3 else none
    | _ => none
  let escq : Option Nat :=
    match cs with
    | '\\' :: c2 :: q :: _ => if c2 = quoteChar ∧ q = quoteChar then some 3 else none
    | _ => none
  let hex : Option Nat :=
    match cs with
    | '\\' :: 'x' :: a :: b :: q :: _ =>
      if isOctDigit a ∧ isHexDigit b ∧ q = quoteChar then some 5 else none
    | _ => none
  let uniAlt : Option Nat :=
    match cs with
    | '\\' :: 'u' :: l :: rest =>
      if uni ∧ l = lbraceChar then
        match rest with
        | r1 :: _ =>
          if isHexDigit r1 then
            match uniTail rest with
            | some k =>
              match rest.drop k with
              | q :: _ => if q = quoteChar then some (3 + k + 1) else none
              | [] => none
            | none => none
          else none
        | [] => none
      else none
    | _ => none
  let cands := [plain, esc, escq, hex, uniAlt]
  cands.foldl
    (fun acc o =>
      match acc, o with
      | some m, some n => some (max m n)
      | some m, none => some m
      | none, o => o)
    none

/-- Matcher for the char-literal rule (`Scalar::CharLiteral`). -/
def matchCharLit (c : Char) (cs : List Char) : Option Nat :=
  if c = quoteChar then charBody true (fun _ => true) cs else none

/-- Matcher for `b"(\\"|[\x00-\x21\x23-\x7F])*"` (`Scalar::ByteStringLiteral`). -/
def matchByteStr (c : Char) (cs : List Char) : Option Nat :=
  match c, cs with
  | 'b', '"' :: rest => (strBody isByteStrChar rest).map (· + 1)
  | _, _ => none

/-- Matcher for `b'(\\'|\\x[0-7][A-Fa-f0-9]|\\?[\x00-\x26\x28-\x7F])'`
(`Scalar::ByteLiteral`). -/
def matchByteLit (c : Char) (cs : List Char) : Option Nat :=
  match c, cs with
  | 'b', q :: rest =>
    if q = quoteChar then (charBody false isByteLitChar rest).map (· + 1) else none
  | _, _ => none

/-- Count of leading underscores (the `_*` prefix of the identifier rule). -/
def underTail : List Char → Nat
  | '_' :: rest => 1 + underTail rest
  | _ => 0

/-- Matcher for `_*[A-Za-z][A-Za-z0-9_]*` (`Scalar::Identifier`). -/
def matchIdent (c : Char) (cs : List Char) : Option Nat :=
  if isLetter c then some (cs.takeWhile isWordChar).length
  else if c = '_' then
    let u := underTail cs
    match cs.drop u with
    | d :: rest =>
      if isLetter d then some (u + 1 + (rest.takeWhile isWordChar).length)
      else none
    | [] => none
  else none

/-! ### The rule table and maximal-munch selection -/

set_option maxHeartbeats 2000000 in
/-- All lexical rules of `lexer::Scalar`, in source declaration order.
`logos` picks the longest match; on a length tie the fixed-text rules win
over the identifier pattern (priority), which the selection below realizes
by keeping the earliest rule of maximal length — the identifier rule is
declared last, exactly as in the source. -/
def rules : List (Scalar × (Char → List Char → Option Nat)) :=
  [(.Error, matchWs),
   (.LeftParen, matchTok "("),
   (.RightParen, matchTok ")"),
   (.LeftBrace, matchTok "\x7b"),
   (.RightBrace, matchTok "\x7d"),
   (.LeftBracket, matchTok "["),
   (.RightBracket, matchTok "]"),
   (.Plus, matchTok "+"),
   (.Minus, matchTok "-"),
   (.Star, matchTok "*"),
   (.Slash, matchTok "/"),
   (.Modulo, matchTok "%"),
   (.Bar, matchTok "|"),
   (.Ampersand, matchTok "&"),
   (.Hat, matchTok "^"),
   (.Dot, matchTok "."),
   (.Comma, matchTok ","),
   (.Underscore, matchTok "_"),
   (.Assign, matchTok "="),
   (.Bang, matchTok "!"),
   (.Question, matchTok "?"),
   (.Tilde, matchTok "~"),
   (.Colon, matchTok ":"),
   (.Semicolon, matchTok ";"),
   (.Or, matchTok "||"),
   (.And, matchTok "&&"),
   (.PlusAssign, matchTok "+="),
   (.MinusAssign, matchTok "-="),
   (.TimesAssign, matchTok "*="),
   (.DivAssign, matchTok "/="),
   (.ModuloAssign, matchTok "%="),
   (.OrAssign, matchTok "|="),
   (.AndAssign, matchTok "&="),
   (.XorAssign, matchTok "^="),
   (.Path, matchTok "::"),
   (.Range, matchTok ".."),
   (.Equal, matchTok "=="),
   (.NotEqual, matchTok "!="),
   (.GreaterEqual, matchTok ">="),
   (.LessEqual, matchTok "<="),
   (.Greater, matchTok ">"),
   (.Less, matchTok "<"),
   (.Let, matchTok "let"),
   (.Const, matchTok "const"),
   (.Global, matchTok "global"),
   (.Fn, matchTok "fn"),
   (.Struct, matchTok "struct"),
   (.If, matchTok "if"),
   (.Else, matchTok "else"),
   (.Loop, matchTok "loop"),
   (.For, matchTok "for"),
   (.In, matchTok "in"),
   (.Mut, matchTok "mut"),
   (.Import, matchTok "import"),
   (.Export, matchTok "export"),
   (.Use, matchTok "use"),
   (.Type, matchTok "type"),
   (.Constraint, matchTok "constraint"),
   (.Is, matchTok "is"),
   (.Return, matchTok "return"),
   (.Break, matchTok "break"),
   (.Continue, matchTok "continue"),
   (.Comment, matchComment),
   (.IntegerLiteral, matchDecInt),
   (.HexIntegerLiteral, matchRadixInt 'X' 'x' isHexDigit),
   (.OctIntegerLiteral, matchRadixInt 'O' 'o' isOctDigit),
   (.BinIntegerLiteral, matchRadixInt 'B' 'b' isBinDigit),
   (.FloatLiteral, matchFloat),
   (.TrueLiteral, matchTok "true"),
   (.FalseLiteral, matchTok "false"),
   (.StringLiteral, matchString),
   (.CharLiteral, matchCharLit),
   (.ByteStringLiteral, matchByteStr),
   (.ByteLiteral, matchByteLit),
   (.Identifier, matchIdent)]

/-- Maximal-munch rule selection over a rule list: the rule with the
longest match wins, and on ties the one declared earlier (higher `logos`
priority among the realizable ties). -/
def pickBest : List (Scalar × (Char → List Char → Option Nat)) →
    Char → List Char → Option (Scalar × Nat)
  | [], _, _ => none
  | (sc, m) :: rest, c, cs =>
    match m c cs, pickBest rest c cs with
    | some n, some (sc2, n2) => if n2 > n then some (sc2, n2) else some (sc, n)
    | some n, none => some (sc, n)
    | none, r => r

/-! ### Literal decoding (`parse_int` … `unescape` in `lexer.rs`) -/

/-- Underscore filtering before radix parsing (`filter_underscores`). -/
def filter_underscores (s : List Char) : List Char := s.filter (fun c => c ≠ '_')

/-- Digit value of a character as `char::to_digit` computes it
(`0`–`9`, then letters, case-insensitive). -/
def digitVal (c : Char) : Option Nat :=
  if 48 ≤ c.toNat ∧ c.toNat ≤ 57 then some (c.toNat - 48)
  else if 97 ≤ c.toNat ∧ c.toNat ≤ 122 then some (c.toNat - 87)
  else if 65 ≤ c.toNat ∧ c.toNat ≤ 90 then some (c.toNat - 55)
  else none

/-- Whether a character is a valid digit for the radix. -/
def isRadixDigit (radix : Nat) (c : Char) : Bool :=
  match digitVal c with
  | some v => v < radix
  | none => false

/-- `u64::from_str_radix` (and, at radix 10, `str::parse::<u64>`): an
optional `+` sign, then a nonempty run of radix digits, accumulated
left-to-right; a value reaching `2 ^ 64` is an overflow error. -/
def radixFromStr (radix : Nat) (s : List Char) : Except LexError Nat :=
  let digits := match s with
    | c :: rest => if c = '+' then rest else s
    | [] => s
  if digits ≠ [] ∧ digits.all (isRadixDigit radix) then
    let v := digits.foldl (fun a c => a * radix + ((digitVal c).getD 0)) 0
    if v < 2 ^ 64 then .ok v else .error .InvalidInteger
  else .error .InvalidInteger

/-- `parse_int`: underscore-filtered decimal `u64` parse. -/
def parse_int (s : List Char) : Except LexError Nat :=
  radixFromStr 10 (filter_underscores s)

/-- `parse_hex_int`: drops the two prefix characters, filters underscores,
parses base 16. -/
def parse_hex_int (s : List Char) : Except LexError Nat :=
  radixFromStr 16 (filter_underscores (s.drop 2))

/-- `parse_oct_int`. -/
def parse_oct_int (s : List Char) : Except LexError Nat :=
  radixFromStr 8 (filter_underscores (s.drop 2))

/-- `parse_bin_int`. -/
def parse_bin_int (s : List Char) : Except LexError Nat :=
  radixFromStr 2 (filter_underscores (s.drop 2))

/-- Keyword alternatives accepted by `f64::from_str` (case-insensitive
`inf`, `infinity`, `nan`). -/
def asciiLower (c : Char) : Char :=
  if 65 ≤ c.toNat ∧ c.toNat ≤ 90 then Char.ofNat (c.toNat + 32) else c

/-- Case-insensitive comparison against a keyword. -/
def lowerIs (s : List Char) (kw : List Char) : Bool := s.map asciiLower = kw

/-- Exponent part acceptance of the `f64::from_str` grammar:
empty, or `e`/`E`, an optional sign, and a nonempty digit run. -/
def floatExpValid (s : List Char) : Bool :=
  match s with
  | [] => true
  | e :: rest =>
    if e = 'e' ∨ e = 'E' then
      let body := match rest with
        | s1 :: rest2 => if s1 = '+' ∨ s1 = '-' then rest2 else rest
        | [] => []
      body ≠ [] ∧ body.all isDecDigit
    else false

/-- The grammar accepted by `f64::from_str` (per its documentation):
optional sign; `inf`/`infinity`/`nan` (case-insensitive); or a mantissa
with at least one digit, an optional `.` plus fraction digits, and an
optional exponent. Parsing a `&str` as `f64` fails exactly when this
grammar rejects it (out-of-range magnitudes round to infinity/zero
rather than failing). -/
def rustFloatValid (s : List Char) : Bool :=
  let body := match s with
    | c :: rest => if c = '+' ∨ c = '-' then rest else s
    | [] => []
  if lowerIs body "inf".data ∨ lowerIs body "infinity".data ∨
      lowerIs body "nan".data then true
  else
    let ipart := body.takeWhile isDecDigit
    let rest1 := body.dropWhile isDecDigit
    match rest1 with
    | '.' :: rest2 =>
      let fpart := rest2.takeWhile isDecDigit
      let rest3 := rest2.dropWhile isDecDigit
      (ipart ≠ [] || fpart ≠ []) && floatExpValid rest3
    | _ => ipart ≠ [] && floatExpValid rest1

/-- `parse_float`: underscore filtering then `f64::from_str`; the float
value is represented by the parsed text itself. -/
def parse_float (s : List Char) : Except LexError Literal :=
  let t := filter_underscores s
  if rustFloatValid t then .ok (.Float (String.mk t)) else .error .InvalidFloat

/-- The numeric stage of the `\u{...}` escape:
`u32::from_str_radix(&digits, 16)` (optional `+`, nonempty hex digit run,
overflow at `2 ^ 32`) followed by `char::try_from` (which rejects
surrogates and values past the Unicode maximum). -/
def u32CharFromDigits (digits : List Char) : Option Char :=
  let body := match digits with
    | '+' :: r => r
    | _ => digits
  if body ≠ [] ∧ body.all isHexDigit then
    let num := body.foldl (fun a c => a * 16 + ((digitVal c).getD 0)) 0
    if num < 2 ^ 32 ∧ num < 1114112 ∧ (num < 55296 ∨ 57343 < num) then
      some (Char.ofNat num)
    else none
  else none

/-- Digit collection of the `\u{...}` escape: characters up to an
unmatched `}`, plus the remaining input; `none` when the input ends
before a `}` appears. -/
def takeToBrace : List Char → Option (List Char × List Char)
  | [] => none
  | c :: rest =>
    if c = rbraceChar then some ([], rest)
    else (takeToBrace rest).map (fun p => (c :: p.1, p.2))

/-- `unescape`: decodes one escape sequence after a `\`, consuming from the
character stream; returns the decoded character and the remaining stream.
`uni` enables the `\u{...}` form (true for strings/chars, false for byte
data). Escapes over `u8` byte streams only ever see ASCII (the byte rules'
content classes), so one `Char`-level model covers both instantiations. -/
def unescape (uni : Bool) (cs : List Char) : Except LexError (Char × List Char) :=
  match cs with
  | [] => .error (.InvalidEscape "\\")
  | '"' :: rest => .ok ('"', rest)
  | '\\' :: rest => .ok ('\\', rest)
  | 'n' :: rest => .ok ('\n', rest)
  | 't' :: rest => .ok ('\t', rest)
  | 'r' :: rest => .ok ('\r', rest)
  | '0' :: rest => .ok (Char.ofNat 0, rest)
  | 'x' :: rest =>
    match rest with
    | [] => .error (.InvalidEscape "\\x")
    | n1 :: rest1 =>
      if isOctDigit n1 then
        match rest1 with
        | [] => .error (.InvalidEscape (String.mk ['\\', 'x', n1]))
        | n2 :: rest2 =>
          if isHexDigit n2 then
            .ok (Char.ofNat (((digitVal n1).getD 0) * 16 + ((digitVal n2).getD 0)),
              rest2)
          else .error (.InvalidEscape (String.mk ['\\', 'x', n1, n2]))
      else .error (.InvalidEscape (String.mk ['\\', 'x', n1]))
  | 'u' :: rest =>
    if uni then
      match rest with
      | l :: rest1 =>
        if l = lbraceChar then
          match takeToBrace rest1 with
          | none =>
            .error (.InvalidEscape (String.mk ('\\' :: 'u' :: lbraceChar :: rest1)))
          | some (digits, rest2) =>
            match u32CharFromDigits digits with
            | some ch => .ok (ch, rest2)
            | none =>
              .error (.InvalidEscape
                (String.mk ('\\' :: 'u' :: lbraceChar :: digits ++ [rbraceChar])))
        else .error (.InvalidEscape "\\u")
      | [] => .error (.InvalidEscape "\\u")
    else .error (.InvalidEscape (String.mk ['\\', 'u']))
  | c :: rest =>
    if c = quoteChar then .ok (quoteChar, rest)
    else .error (.InvalidEscape (String.mk ['\\', c]))

/-- The remainder returned by `takeToBrace` is no longer than its input. -/
theorem takeToBrace_le :
    ∀ cs digits rest, takeToBrace cs = some (digits, rest) →
      rest.length ≤ cs.length := by
  intro cs
  induction cs with
  | nil => intro ds r h; simp [takeToBrace] at h
  | cons c rest ih =>
    intro ds r h
    simp only [takeToBrace] at h
    split at h
    · simp only [Option.some.injEq] at h
      cases h
      simp
    · cases htb : takeToBrace rest with
      | none => rw [htb] at h; simp at h
      | some p =>
        obtain ⟨p1, p2⟩ := p
        rw [htb] at h
        simp at h
        obtain ⟨-, rfl⟩ := h
        have := ih p1 p2 htb
        simp
        omega

/-- The remainder returned by `unescape` is shorter than its input. -/
theorem unescape_lt (uni : Bool) :
    ∀ cs c rest, unescape uni cs = .ok (c, rest) → rest.length < cs.length := by
  intro cs c rest h
  unfold unescape at h
  repeat' split at h
  all_goals
    first
    | (simp at h
       done)
    | (simp only [Except.ok.injEq, Prod.mk.injEq] at h
       obtain ⟨-, rfl⟩ := h
       simp only [List.length_cons]
       omega)
    | (simp only [Except.ok.injEq, Prod.mk.injEq] at h
       obtain ⟨-, rfl⟩ := h
       have hle := takeToBrace_le _ _ _ (by assumption)
       simp only [List.length_cons]
       omega)

/-- Body of the `parse_str` loop: decode each character, entering
`unescape` after each `\`, accumulating the decoded characters. Each
iteration consumes at least one character, so input length is sufficient
fuel (`strLoop_fuel` below). -/
def strLoop (uni : Bool) : Nat → List Char → Except LexError (List Char)
  | 0, _ => .ok []
  | _ + 1, [] => .ok []
  | fuel + 1, c :: rest =>
    if c = '\\' then
      match unescape uni rest with
      | .error e => .error e
      | .ok (ch, rest2) =>
        match strLoop uni fuel rest2 with
        | .error e => .error e
        | .ok out => .ok (ch :: out)
    else
      match strLoop uni fuel rest with
      | .error e => .error e
      | .ok out => .ok (c :: out)

/-- Any fuel at least the input length gives the same decoding, so the
fuel parameter of `strLoop` is inessential. -/
theorem strLoop_fuel (uni : Bool) :
    ∀ fuel cs, cs.length ≤ fuel → strLoop uni fuel cs = strLoop uni cs.length cs := by
  intro fuel
  induction fuel using Nat.strong_induction_on with
  | _ fuel ih =>
    intro cs h
    match fuel, cs with
    | 0, [] => rfl
    | 0, c :: cs => simp at h
    | f + 1, [] => rfl
    | f + 1, c :: rest =>
      simp only [List.length_cons] at h ⊢
      simp only [strLoop]
      by_cases hbs : c = '\\'
      · rw [if_pos hbs, if_pos hbs]
        cases hu : unescape uni rest with
        | error e => rfl
        | ok pr =>
          obtain ⟨ch, rest2⟩ := pr
          have hlt := unescape_lt uni rest ch rest2 hu
          dsimp only
          rw [ih f (by omega) rest2 (by omega),
            ih rest.length (by omega) rest2 (by omega)]
      · rw [if_neg hbs, if_neg hbs, ih f (by omega) rest (by omega)]

/-- `parse_str`: strips the surrounding quotes, then decodes. -/
def parse_str (slice : List Char) : Except LexError String :=
  ((strLoop true ((slice.drop 1).dropLast).length ((slice.drop 1).dropLast)).map
    String.mk)

/-- `parse_char`: strips the quotes; a leading `\` defers to `unescape`,
anything else is the character itself. The char-literal regex guarantees
nonempty content, so the empty case (a `unreachable!()` panic in the
source) is modelled by an error value. -/
def parse_char (slice : List Char) : Except LexError Char :=
  match (slice.drop 1).dropLast with
  | '\\' :: rest => (unescape true rest).map (·.1)
  | c :: _ => .ok c
  | [] => .error .InvalidToken

/-- Body of the `parse_byte_str` loop over bytes (the content class is
ASCII, so bytes are represented by their character values); escapes are
decoded without the unicode form and cast `as u8`. Fueled like
`strLoop`. -/
def byteLoop : Nat → List Char → Except LexError (List Nat)
  | 0, _ => .ok []
  | _ + 1, [] => .ok []
  | fuel + 1, c :: rest =>
    if c = '\\' then
      match unescape false rest with
      | .error e => .error e
      | .ok (ch, rest2) =>
        match byteLoop fuel rest2 with
        | .error e => .error e
        | .ok out => .ok (ch.toNat % 256 :: out)
    else
      match byteLoop fuel rest with
      | .error e => .error e
      | .ok out => .ok (c.toNat :: out)

/-- Any fuel at least the input length gives the same byte decoding. -/
theorem byteLoop_fuel :
    ∀ fuel cs, cs.length ≤ fuel → byteLoop fuel cs = byteLoop cs.length cs := by
  intro fuel
  induction fuel using Nat.strong_induction_on with
  | _ fuel ih =>
    intro cs h
    match fuel, cs with
    | 0, [] => rfl
    | 0, c :: cs => simp at h
    | f + 1, [] => rfl
    | f + 1, c :: rest =>
      simp only [List.length_cons] at h ⊢
      simp only [byteLoop]
      by_cases hbs : c = '\\'
      · rw [if_pos hbs, if_pos hbs]
        cases hu : unescape false rest with
        | error e => rfl
        | ok pr =>
          obtain ⟨ch, rest2⟩ := pr
          have hlt := unescape_lt false rest ch rest2 hu
          dsimp only
          rw [ih f (by omega) rest2 (by omega),
            ih rest.length (by omega) rest2 (by omega)]
      · rw [if_neg hbs, if_neg hbs, ih f (by omega) rest (by omega)]

/-- `parse_byte_str`: strips the `b"` prefix and closing quote, then
decodes bytes. -/
def parse_byte_str (slice : List Char) : Except LexError (List Nat) :=
  byteLoop ((slice.drop 2).dropLast).length ((slice.drop 2).dropLast)

/-- `parse_byte`: strips `b'` and the closing quote; as in `parse_char`,
the empty (unreachable) case is an error value. -/
def parse_byte (slice : List Char) : Except LexError Nat :=
  match (slice.drop 2).dropLast with
  | '\\' :: rest => (unescape false rest).map (fun p => p.1.toNat % 256)
  | c :: _ => .ok c.toNat
  | [] => .error .InvalidToken

/-- The token-construction match of `lex`: maps a matched rule and its
source slice to a token or lexing error, decoding literals eagerly. -/
def tokenize (sc : Scalar) (slice : List Char) : Except LexError TokenType :=
  match sc with
  | .Error => .error .InvalidToken
  | .IntegerLiteral => (parse_int slice).map (fun i => .Literal (.Integer i))
  | .HexIntegerLiteral => (parse_hex_int slice).map (fun i => .Literal (.Integer i))
  | .OctIntegerLiteral => (parse_oct_int slice).map (fun i => .Literal (.Integer i))
  | .BinIntegerLiteral => (parse_bin_int slice).map (fun i => .Literal (.Integer i))
  | .FloatLiteral => (parse_float slice).map (fun l => .Literal l)
  | .TrueLiteral => .ok (.Literal (.Bool true))
  | .FalseLiteral => .ok (.Literal (.Bool false))
  | .StringLiteral => (parse_str slice).map (fun s => .Literal (.String s))
  | .CharLiteral => (parse_char slice).map (fun c => .Literal (.Char c))
  | .ByteStringLiteral => (parse_byte_str slice).map (fun bs => .Literal (.ByteString bs))
  | .ByteLiteral => (parse_byte slice).map (fun b => .Literal (.Byte b))
  | .Identifier => .ok (.Identifier (String.mk slice))
  | _ => .ok (.Scalar sc)

/-- The tokenizing loop: at each position select the maximal-munch rule.
A win by the `Error`/whitespace rule is skipped without emission (its
`logos::skip` callback); any other win emits `tokenize` of the matched
slice; if no rule matches, the position becomes its own `InvalidToken`
error with a one-character span. Every rule consumes at least one
character, so input length is sufficient fuel (`lexLoop_fuel` below). -/
def lexLoop : Nat → List Char → Nat → List (Except LexError TokenType × Span)
  | 0, _, _ => []
  | _ + 1, [], _ => []
  | fuel + 1, c :: cs, p =>
    match pickBest rules c cs with
    | some (sc, extra) =>
      if sc = .Error then lexLoop fuel (cs.drop extra) (p + (extra + 1))
      else
        (tokenize sc (c :: cs.take extra), ⟨p, p + (extra + 1)⟩) ::
          lexLoop fuel (cs.drop extra) (p + (extra + 1))
    | none => (.error .InvalidToken, ⟨p, p + 1⟩) :: lexLoop fuel cs (p + 1)

/-- Any fuel at least the input length gives the same trace, so the fuel
parameter of `lexLoop` is inessential: the loop consumes at least one
character per step. -/
theorem lexLoop_fuel :
    ∀ fuel cs p, cs.length ≤ fuel → lexLoop fuel cs p = lexLoop cs.length cs p := by
  intro fuel
  induction fuel using Nat.strong_induction_on with
  | _ fuel ih =>
    intro cs p h
    match fuel, cs with
    | 0, [] => rfl
    | 0, c :: cs => simp at h
    | f + 1, [] => rfl
    | f + 1, c :: cs =>
      simp only [List.length_cons] at h ⊢
      have hlen : cs.length ≤ f := by omega
      simp only [lexLoop]
      split
      · rename_i sc extra heq
        have hd : (cs.drop extra).length ≤ f := le_trans (by simp) hlen
        have hd2 : (cs.drop extra).length ≤ cs.length := by simp
        split
        · rw [ih f (by omega) _ _ hd, ih cs.length (by omega) _ _ hd2]
        · rw [ih f (by omega) _ _ hd, ih cs.length (by omega) _ _ hd2]
      · rw [ih f (by omega) cs (p + 1) hlen]

/-- `lex`: tokenize an entire source string (the `Scalar::lexer(..)
.spanned().map(..)` pipeline, materialized). -/
def lex (source : String) : List (Except LexError TokenType × Span) :=
  lexLoop source.data.length source.data 0

/-! ### The parser (`ast.rs`)

The parser consumes a finalized token slice through a cursor. In the
source the cursor is a relaxed atomic `usize` behind a shared reference;
the code is strictly sequential, so the embedding threads the read
position explicitly: every parse function takes the position and returns
the updated one, together with the accumulated error list. -/

/-- Parse error (`ast::Error`): the single current kind. -/
inductive AstError where
  | Unimplemented
deriving DecidableEq, Repr

/-- Spanned scalar (`ast::SpSc`). -/
structure SpSc where
  sc : Scalar
  sp : Span
deriving DecidableEq, Repr

mutual
/-- Expression node (`ast::Expr`): payload plus aggregate span. -/
inductive Expr where
  | mk (ty : ExprType) (span : Span)
/-- Expression payload (`ast::ExprType`). -/
inductive ExprType where
  | Binary (b : Binary)
  | Unary (u : Unary)
  | Primary (p : Primary)
  | Invalid
/-- Binary node (`ast::Binary`). -/
inductive Binary where
  | mk (lhs : Expr) (op : SpSc) (rhs : Expr)
/-- Unary node (`ast::Unary`). -/
inductive Unary where
  | mk (op : SpSc) (rhs : Expr)
/-- Primary node (`ast::Primary`). -/
inductive Primary where
  | Literal (l : Literal)
  | Identifier (i : String)
  | Block (lhs : SpSc) (expr : Expr) (rhs : SpSc)
end

/-- Payload accessor (field `ty` of `ast::Expr`). -/
def Expr.ty : Expr → ExprType
  | .mk t _ => t

/-- Span accessor (field `span` of `ast::Expr`). -/
def Expr.span : Expr → Span
  | .mk _ s => s

/-- `Tokens::peek`: the token at the cursor, if any. -/
def peekTok (toks : List Token) (c : Nat) : Option Token := toks[c]?

/-- The `ass!`-generated `Token::as_unary`: a `Bang`/`Plus`/`Minus` scalar
token as a spanned scalar. -/
def Token.as_unary : Token → Option SpSc
  | ⟨.Scalar .Bang, sp⟩ => some ⟨.Bang, sp⟩
  | ⟨.Scalar .Plus, sp⟩ => some ⟨.Plus, sp⟩
  | ⟨.Scalar .Minus, sp⟩ => some ⟨.Minus, sp⟩
  | _ => none

/-- `Token::as_equality` (`Equal`/`NotEqual`). -/
def Token.as_equality : Token → Option SpSc
  | ⟨.Scalar .Equal, sp⟩ => some ⟨.Equal, sp⟩
  | ⟨.Scalar .NotEqual, sp⟩ => some ⟨.NotEqual, sp⟩
  | _ => none

/-- `Token::as_comparison` (`GreaterEqual`/`LessEqual`/`Greater`/`Less`). -/
def Token.as_comparison : Token → Option SpSc
  | ⟨.Scalar .GreaterEqual, sp⟩ => some ⟨.GreaterEqual, sp⟩
  | ⟨.Scalar .LessEqual, sp⟩ => some ⟨.LessEqual, sp⟩
  | ⟨.Scalar .Greater, sp⟩ => some ⟨.Greater, sp⟩
  | ⟨.Scalar .Less, sp⟩ => some ⟨.Less, sp⟩
  | _ => none

/-- `Token::as_addition` (`Plus`/`Minus`). -/
def Token.as_addition : Token → Option SpSc
  | ⟨.Scalar .Plus, sp⟩ => some ⟨.Plus, sp⟩
  | ⟨.Scalar .Minus, sp⟩ => some ⟨.Minus, sp⟩
  | _ => none

/-- `Token::as_multiplication` (`Star`/`Slash`/`Modulo`). -/
def Token.as_multiplication : Token → Option SpSc
  | ⟨.Scalar .Star, sp⟩ => some ⟨.Star, sp⟩
  | ⟨.Scalar .Slash, sp⟩ => some ⟨.Slash, sp⟩
  | ⟨.Scalar .Modulo, sp⟩ => some ⟨.Modulo, sp⟩
  | _ => none

/-- State returned by each parse function: the parsed expression, the
cursor after it, and the error vector. -/
abbrev ParseState := Expr × Nat × List (AstError × Span)

/-- `ast::primary`: a literal or identifier token becomes a `Primary`
node; anything else (or an exhausted cursor) records an `Unimplemented`
error, consumes one position, and yields an `Invalid` node spanning the
consumed token (`Span(0, 0)` when the cursor was exhausted). -/
def primary (toks : List Token) (c : Nat) (errors : List (AstError × Span)) :
    ParseState :=
  match peekTok toks c with
  | some ⟨.Literal l, span⟩ => (⟨.Primary (.Literal l), span⟩, c + 1, errors)
  | some ⟨.Identifier i, span⟩ => (⟨.Primary (.Identifier i), span⟩, c + 1, errors)
  | _ =>
    let span := ((peekTok toks c).map Token.span).getD ⟨0, 0⟩
    (⟨.Invalid, span⟩, c + 1, errors ++ [(.Unimplemented, span)])

/-- `ast::unary`: prefix `!`/`+`/`-` chain, right-recursive, else
`primary`; a `Unary` node spans from the operator to its operand. -/
def unary (toks : List Token) (c : Nat) (errors : List (AstError × Span)) :
    ParseState :=
  match h : peekTok toks c with
  | some t =>
    match t.as_unary with
    | some op =>
      let s := unary toks (c + 1) errors
      (⟨.Unary (.mk op s.1), ⟨op.sp.start, s.1.span.stop⟩⟩, s.2.1, s.2.2)
    | none => primary toks c errors
  | none => primary toks c errors
termination_by toks.length - c
decreasing_by
  have : c < toks.length := by
    by_contra hc
    rw [peekTok, List.getElem?_eq_none (by omega)] at h
    exact absurd h (by simp)
  omega

/-- `primary` advances the cursor by exactly one. -/
theorem primary_cursor (toks : List Token) (c : Nat) (errors : List (AstError × Span)) :
    (primary toks c errors).2.1 = c + 1 := by
  unfold primary
  split <;> rfl

/-- `unary` strictly advances the cursor. -/
theorem unary_cursor (toks : List Token) (c : Nat) (errors : List (AstError × Span)) :
    c < (unary toks c errors).2.1 := by
  unfold unary
  split
  · split
    · dsimp only
      have := unary_cursor toks (c + 1) errors
      omega
    · rw [primary_cursor]
      omega
  · rw [primary_cursor]
    omega
termination_by toks.length - c
decreasing_by
  have : c < toks.length := by
    by_contra hc
    have hnone : peekTok toks c = none := by
      rw [peekTok]
      exact List.getElem?_eq_none (by omega)
    simp_all
  omega

/-- The `while let Some(Some(op)) = tokens.peek().map(..)` loop of the
`binary!`-generated `multiplication` level: as long as the lookahead is a
`*`/`/`/`%` token, consume it, parse a `unary` operand, and fold the
accumulated expression into a left-nested `Binary` node. -/
def multiplicationLoop (toks : List Token) (expr : Expr) (c : Nat)
    (errors : List (AstError × Span)) : ParseState :=
  match h : (peekTok toks c).map Token.as_multiplication with
  | some (some op) =>
    let s := unary toks (c + 1) errors
    multiplicationLoop toks
      ⟨.Binary (.mk expr op s.1), ⟨expr.span.start, s.1.span.stop⟩⟩ s.2.1 s.2.2
  | _ => (expr, c, errors)
termination_by toks.length - c
decreasing_by
  have hc : c < toks.length := by
    by_contra hcc
    have hnone : peekTok toks c = none := by
      rw [peekTok]
      exact List.getElem?_eq_none (by omega)
    rw [hnone] at h
    simp at h
  have hu := unary_cursor toks (c + 1) errors
  omega

/-- The loop of a binary level never rewinds the cursor. -/
theorem multiplicationLoop_cursor (toks : List Token) (expr : Expr) (c : Nat)
    (errors : List (AstError × Span)) :
    c ≤ (multiplicationLoop toks expr c errors).2.1 := by
  unfold multiplicationLoop
  split
  · rename_i op h
    dsimp only
    have hu := unary_cursor toks (c + 1) errors
    have h2 := multiplicationLoop_cursor toks
      ⟨.Binary (.mk expr op (unary toks (c + 1) errors).1),
        ⟨expr.span.start, (unary toks (c + 1) errors).1.span.stop⟩⟩
      (unary toks (c + 1) errors).2.1 (unary toks (c + 1) errors).2.2
    omega
  · simp
termination_by toks.length - c
decreasing_by
  have hc : c < toks.length := by
    by_contra hcc
    have hnone : peekTok toks c = none := by
      rw [peekTok]
      exact List.getElem?_eq_none (by omega)
    simp_all
  have hu := unary_cursor toks (c + 1) errors
  omega

/-- `ast::multiplication`: a `unary` operand then the fold loop. -/
def multiplication (toks : List Token) (c : Nat)
    (errors : List (AstError × Span)) : ParseState :=
  let s := unary toks c errors
  multiplicationLoop toks s.1 s.2.1 s.2.2

/-- `multiplication` strictly advances the cursor. -/
theorem multiplication_cursor (toks : List Token) (c : Nat)
    (errors : List (AstError × Span)) :
    c < (multiplication toks c errors).2.1 := by
  unfold multiplication
  have h1 := unary_cursor toks c errors
  have h2 := multiplicationLoop_cursor toks (unary toks c errors).1
    (unary toks c errors).2.1 (unary toks c errors).2.2
  dsimp only
  omega

/-- The fold loop of the `addition` level (`+`/`-`). -/
def additionLoop (toks : List Token) (expr : Expr) (c : Nat)
    (errors : List (AstError × Span)) : ParseState :=
  match h : (peekTok toks c).map Token.as_addition with
  | some (some op) =>
    let s := multiplication toks (c + 1) errors
    additionLoop toks
      ⟨.Binary (.mk expr op s.1), ⟨expr.span.start, s.1.span.stop⟩⟩ s.2.1 s.2.2
  | _ => (expr, c, errors)
termination_by toks.length - c
decreasing_by
  have hc : c < toks.length := by
    by_contra hcc
    have hnone : peekTok toks c = none := by
      rw [peekTok]
      exact List.getElem?_eq_none (by omega)
    rw [hnone] at h
    simp at h
  have hu := multiplication_cursor toks (c + 1) errors
  omega

/-- The `addition` loop never rewinds the cursor. -/
theorem additionLoop_cursor (toks : List Token) (expr : Expr) (c : Nat)
    (errors : List (AstError × Span)) :
    c ≤ (additionLoop toks expr c errors).2.1 := by
  unfold additionLoop
  split
  · rename_i op h
    dsimp only
    have hu := multiplication_cursor toks (c + 1) errors
    have h2 := additionLoop_cursor toks
      ⟨.Binary (.mk expr op (multiplication toks (c + 1) errors).1),
        ⟨expr.span.start, (multiplication toks (c + 1) errors).1.span.stop⟩⟩
      (multiplication toks (c + 1) errors).2.1 (multiplication toks (c + 1) errors).2.2
    omega
  · simp
termination_by toks.length - c
decreasing_by
  have hc : c < toks.length := by
    by_contra hcc
    have hnone : peekTok toks c = none := by
      rw [peekTok]
      exact List.getElem?_eq_none (by omega)
    simp_all
  have hu := multiplication_cursor toks (c + 1) errors
  omega

/-- `ast::addition`. -/
def addition (toks : List Token) (c : Nat)
    (errors : List (AstError × Span)) : ParseState :=
  let s := multiplication toks c errors
  additionLoop toks s.1 s.2.1 s.2.2

/-- `addition` strictly advances the cursor. -/
theorem addition_cursor (toks : List Token) (c : Nat)
    (errors : List (AstError × Span)) :
    c < (addition toks c errors).2.1 := by
  unfold addition
  have h1 := multiplication_cursor toks c errors
  have h2 := additionLoop_cursor toks (multiplication toks c errors).1
    (multiplication toks c errors).2.1 (multiplication toks c errors).2.2
  dsimp only
  omega

/-- The fold loop of the `comparison` level (`>=`/`<=`/`>`/`<`). -/
def comparisonLoop (toks : List Token) (expr : Expr) (c : Nat)
    (errors : List (AstError × Span)) : ParseState :=
  match h : (peekTok toks c).map Token.as_comparison with
  | some (some op) =>
    let s := addition toks (c + 1) errors
    comparisonLoop toks
      ⟨.Binary (.mk expr op s.1), ⟨expr.span.start, s.1.span.stop⟩⟩ s.2.1 s.2.2
  | _ => (expr, c, errors)
termination_by toks.length - c
decreasing_by
  have hc : c < toks.length := by
    by_contra hcc
    have hnone : peekTok toks c = none := by
      rw [peekTok]
      exact List.getElem?_eq_none (by omega)
    rw [hnone] at h
    simp at h
  have hu := addition_cursor toks (c + 1) errors
  omega

/-- The `comparison` loop never rewinds the cursor. -/
theorem comparisonLoop_cursor (toks : List Token) (expr : Expr) (c : Nat)
    (errors : List (AstError × Span)) :
    c ≤ (comparisonLoop toks expr c errors).2.1 := by
  unfold comparisonLoop
  split
  · rename_i op h
    dsimp only
    have hu := addition_cursor toks (c + 1) errors
    have h2 := comparisonLoop_cursor toks
      ⟨.Binary (.mk expr op (addition toks (c + 1) errors).1),
        ⟨expr.span.start, (addition toks (c + 1) errors).1.span.stop⟩⟩
      (addition toks (c + 1) errors).2.1 (addition toks (c + 1) errors).2.2
    omega
  · simp
termination_by toks.length - c
decreasing_by
  have hc : c < toks.length := by
    by_contra hcc
    have hnone : peekTok toks c = none := by
      rw [peekTok]
      exact List.getElem?_eq_none (by omega)
    simp_all
  have hu := addition_cursor toks (c + 1) errors
  omega

/-- `ast::comparison`. -/
def comparison (toks : List Token) (c : Nat)
    (errors : List (AstError × Span)) : ParseState :=
  let s := addition toks c errors
  comparisonLoop toks s.1 s.2.1 s.2.2

/-- `comparison` strictly advances the cursor. -/
theorem comparison_cursor (toks : List Token) (c : Nat)
    (errors : List (AstError × Span)) :
    c < (comparison toks c errors).2.1 := by
  unfold comparison
  have h1 := addition_cursor toks c errors
  have h2 := comparisonLoop_cursor toks (addition toks c errors).1
    (addition toks c errors).2.1 (addition toks c errors).2.2
  dsimp only
  omega

/-- The fold loop of the `equality` level (`==`/`!=`). -/
def equalityLoop (toks : List Token) (expr : Expr) (c : Nat)
    (errors : List (AstError × Span)) : ParseState :=
  match h : (peekTok toks c).map Token.as_equality with
  | some (some op) =>
    let s := comparison toks (c + 1) errors
    equalityLoop toks
      ⟨.Binary (.mk expr op s.1), ⟨expr.span.start, s.1.span.stop⟩⟩ s.2.1 s.2.2
  | _ => (expr, c, errors)
termination_by toks.length - c
decreasing_by
  have hc : c < toks.length := by
    by_contra hcc
    have hnone : peekTok toks c = none := by
      rw [peekTok]
      exact List.getElem?_eq_none (by omega)
    rw [hnone] at h
    simp at h
  have hu := comparison_cursor toks (c + 1) errors
  omega

/-- The `equality` loop never rewinds the cursor. -/
theorem equalityLoop_cursor (toks : List Token) (expr : Expr) (c : Nat)
    (errors : List (AstError × Span)) :
    c ≤ (equalityLoop toks expr c errors).2.1 := by
  unfold equalityLoop
  split
  · rename_i op h
    dsimp only
    have hu := comparison_cursor toks (c + 1) errors
    have h2 := equalityLoop_cursor toks
      ⟨.Binary (.mk expr op (comparison toks (c + 1) errors).1),
        ⟨expr.span.start, (comparison toks (c + 1) errors).1.span.stop⟩⟩
      (comparison toks (c + 1) errors).2.1 (comparison toks (c + 1) errors).2.2
    omega
  · simp
termination_by toks.length - c
decreasing_by
  have hc : c < toks.length := by
    by_contra hcc
    have hnone : peekTok toks c = none := by
      rw [peekTok]
      exact List.getElem?_eq_none (by omega)
    simp_all
  have hu := comparison_cursor toks (c + 1) errors
  omega

/-- `ast::equality`, the lowest-precedence level. -/
def equality (toks : List Token) (c : Nat)
    (errors : List (AstError × Span)) : ParseState :=
  let s := comparison toks c errors
  equalityLoop toks s.1 s.2.1 s.2.2

/-- `equality` strictly advances the cursor. -/
theorem equality_cursor (toks : List Token) (c : Nat)
    (errors : List (AstError × Span)) :
    c < (equality toks c errors).2.1 := by
  unfold equality
  have h1 := comparison_cursor toks c errors
  have h2 := equalityLoop_cursor toks (comparison toks c errors).1
    (comparison toks c errors).2.1 (comparison toks c errors).2.2
  dsimp only
  omega

/-- `ast::parse`: run `equality` from the start with an empty error
vector; return the root expression and the errors. -/
def parse (toks : List Token) : Expr × List (AstError × Span) :=
  let s := equality toks 0 []
  (s.1, s.2.2)

/-- The driver pipeline feeding `parse` (as in `frontend-cli`/`wasm`):
lex, keep the `Ok` tokens with their spans, wrap as parser tokens. -/
def tokensOf (source : String) : List Token :=
  (lex source).filterMap fun r =>
    match r with
    | (.ok t, sp) => some ⟨t, sp⟩
    | (.error _, _) => none

/-! ### Span predicates on expression trees -/

mutual
/-- Every `Binary`/`Unary` node in the tree has its span bounds equal to
its leftmost constituent's start (left operand for `Binary`, operator for
`Unary`) and its rightmost child's end. -/
def spansEqOk : Expr → Bool
  | .mk (.Binary (.mk l _ r)) sp =>
    (sp.start == l.span.start) && (sp.stop == r.span.stop) &&
      spansEqOk l && spansEqOk r
  | .mk (.Unary (.mk op r)) sp =>
    (sp.start == op.sp.start) && (sp.stop == r.span.stop) && spansEqOk r
  | .mk (.Primary p) _ => primarySpansEqOk p
  | .mk .Invalid _ => true
/-- Auxiliary for `spansEqOk` on primaries (recurses into `Block`). -/
def primarySpansEqOk : Primary → Bool
  | .Block _ e _ => spansEqOk e
  | _ => true
end

/-- `outer` fully contains `inner` as a byte range. -/
def spanContains (outer inner : Span) : Bool :=
  (outer.start ≤ inner.start) && (inner.stop ≤ outer.stop)

mutual
/-- Every `Binary`/`Unary` node's span fully contains each child
(operand) span, recursively. -/
def containsOk : Expr → Bool
  | .mk (.Binary (.mk l _ r)) sp =>
    spanContains sp l.span && spanContains sp r.span && containsOk l && containsOk r
  | .mk (.Unary (.mk _ r)) sp =>
    spanContains sp r.span && containsOk r
  | .mk (.Primary p) _ => primaryContainsOk p
  | .mk .Invalid _ => true
/-- Auxiliary for `containsOk` on primaries. -/
def primaryContainsOk : Primary → Bool
  | .Block _ e _ => containsOk e
  | _ => true
end

/-! ### Parser invariants: span construction, cursor bounds, error counts -/

/-- `primary` only builds leaf nodes, which trivially satisfy the span
bound equalities. -/
theorem primary_spansEq (toks : List Token) (c : Nat)
    (errors : List (AstError × Span)) :
    spansEqOk (primary toks c errors).1 = true := by
  unfold primary
  split <;> rfl

/-- Every node `unary` builds satisfies the span bound equalities. -/
theorem unary_spansEq (toks : List Token) (c : Nat)
    (errors : List (AstError × Span)) :
    spansEqOk (unary toks c errors).1 = true := by
  unfold unary
  split
  · split
    · dsimp only
      have ih := unary_spansEq toks (c + 1) errors
      simp [spansEqOk, ih]
    · exact primary_spansEq toks c errors
  · exact primary_spansEq toks c errors
termination_by toks.length - c
decreasing_by
  have : c < toks.length := by
    by_contra hc
    have hnone : peekTok toks c = none := by
      rw [peekTok]
      exact List.getElem?_eq_none (by omega)
    simp_all
  omega

/-- The `multiplication` fold loop preserves the span bound equalities. -/
theorem multiplicationLoop_spansEq (toks : List Token) (expr : Expr) (c : Nat)
    (errors : List (AstError × Span)) (h : spansEqOk expr = true) :
    spansEqOk (multiplicationLoop toks expr c errors).1 = true := by
  unfold multiplicationLoop
  split
  · dsimp only
    exact multiplicationLoop_spansEq toks _ _ _
      (by simp [spansEqOk, h, unary_spansEq])
  · exact h
termination_by toks.length - c
decreasing_by
  have hc : c < toks.length := by
    by_contra hcc
    have hnone : peekTok toks c = none := by
      rw [peekTok]
      exact List.getElem?_eq_none (by omega)
    simp_all
  have hu := unary_cursor toks (c + 1) errors
  omega

/-- Every node `multiplication` builds satisfies the span bound
equalities. -/
theorem multiplication_spansEq (toks : List Token) (c : Nat)
    (errors : List (AstError × Span)) :
    spansEqOk (multiplication toks c errors).1 = true := by
  unfold multiplication
  exact multiplicationLoop_spansEq toks _ _ _ (unary_spansEq toks c errors)

/-- The `addition` fold loop preserves the span bound equalities. -/
theorem additionLoop_spansEq (toks : List Token) (expr : Expr) (c : Nat)
    (errors : List (AstError × Span)) (h : spansEqOk expr = true) :
    spansEqOk (additionLoop toks expr c errors).1 = true := by
  unfold additionLoop
  split
  · dsimp only
    exact additionLoop_spansEq toks _ _ _
      (by simp [spansEqOk, h, multiplication_spansEq])
  · exact h
termination_by toks.length - c
decreasing_by
  have hc : c < toks.length := by
    by_contra hcc
    have hnone : peekTok toks c = none := by
      rw [peekTok]
      exact List.getElem?_eq_none (by omega)
    simp_all
  have hu := multiplication_cursor toks (c + 1) errors
  omega

/-- Every node `addition` builds satisfies the span bound equalities. -/
theorem addition_spansEq (toks : List Token) (c : Nat)
    (errors : List (AstError × Span)) :
    spansEqOk (addition toks c errors).1 = true := by
  unfold addition
  exact additionLoop_spansEq toks _ _ _ (multiplication_spansEq toks c errors)

/-- The `comparison` fold loop preserves the span bound equalities. -/
theorem comparisonLoop_spansEq (toks : List Token) (expr : Expr) (c : Nat)
    (errors : List (AstError × Span)) (h : spansEqOk expr = true) :
    spansEqOk (comparisonLoop toks expr c errors).1 = true := by
  unfold comparisonLoop
  split
  · dsimp only
    exact comparisonLoop_spansEq toks _ _ _
      (by simp [spansEqOk, h, addition_spansEq])
  · exact h
termination_by toks.length - c
decreasing_by
  have hc : c < toks.length := by
    by_contra hcc
    have hnone : peekTok toks c = none := by
      rw [peekTok]
      exact List.getElem?_eq_none (by omega)
    simp_all
  have hu := addition_cursor toks (c + 1) errors
  omega

/-- Every node `comparison` builds satisfies the span bound equalities. -/
theorem comparison_spansEq (toks : List Token) (c : Nat)
    (errors : List (AstError × Span)) :
    spansEqOk (comparison toks c errors).1 = true := by
  unfold comparison
  exact comparisonLoop_spansEq toks _ _ _ (addition_spansEq toks c errors)

/-- The `equality` fold loop preserves the span bound equalities. -/
theorem equalityLoop_spansEq (toks : List Token) (expr : Expr) (c : Nat)
    (errors : List (AstError × Span)) (h : spansEqOk expr = true) :
    spansEqOk (equalityLoop toks expr c errors).1 = true := by
  unfold equalityLoop
  split
  · dsimp only
    exact equalityLoop_spansEq toks _ _ _
      (by simp [spansEqOk, h, comparison_spansEq])
  · exact h
termination_by toks.length - c
decreasing_by
  have hc : c < toks.length := by
    by_contra hcc
    have hnone : peekTok toks c = none := by
      rw [peekTok]
      exact List.getElem?_eq_none (by omega)
    simp_all
  have hu := comparison_cursor toks (c + 1) errors
  omega

/-- Every node `equality` builds satisfies the span bound equalities. -/
theorem equality_spansEq (toks : List Token) (c : Nat)
    (errors : List (AstError × Span)) :
    spansEqOk (equality toks c errors).1 = true := by
  unfold equality
  exact equalityLoop_spansEq toks _ _ _ (comparison_spansEq toks c errors)

/-- `unary` never moves the cursor past one position beyond the end. -/
theorem unary_cursor_le (toks : List Token) (c : Nat)
    (errors : List (AstError × Span)) (h : c ≤ toks.length) :
    (unary toks c errors).2.1 ≤ toks.length + 1 := by
  unfold unary
  split
  · split
    · dsimp only
      have hlt : c < toks.length := by
        by_contra hcc
        have hnone : peekTok toks c = none := by
          rw [peekTok]
          exact List.getElem?_eq_none (by omega)
        simp_all
      exact unary_cursor_le toks (c + 1) errors (by omega)
    · rw [primary_cursor]
      omega
  · rw [primary_cursor]
    omega
termination_by toks.length - c
decreasing_by
  have : c < toks.length := by
    by_contra hc
    have hnone : peekTok toks c = none := by
      rw [peekTok]
      exact List.getElem?_eq_none (by omega)
    simp_all
  omega

/-- The `multiplication` loop keeps the cursor within one past the end. -/
theorem multiplicationLoop_cursor_le (toks : List Token) (expr : Expr) (c : Nat)
    (errors : List (AstError × Span)) (h : c ≤ toks.length + 1) :
    (multiplicationLoop toks expr c errors).2.1 ≤ toks.length + 1 := by
  unfold multiplicationLoop
  split
  · dsimp only
    have hlt : c < toks.length := by
      by_contra hcc
      have hnone : peekTok toks c = none := by
        rw [peekTok]
        exact List.getElem?_eq_none (by omega)
      simp_all
    exact multiplicationLoop_cursor_le toks _ _ _
      (unary_cursor_le toks (c + 1) errors (by omega))
  · exact h
termination_by toks.length - c
decreasing_by
  have hc : c < toks.length := by
    by_contra hcc
    have hnone : peekTok toks c = none := by
      rw [peekTok]
      exact List.getElem?_eq_none (by omega)
    simp_all
  have hu := unary_cursor toks (c + 1) errors
  omega

/-- `multiplication` keeps the cursor within one past the end. -/
theorem multiplication_cursor_le (toks : List Token) (c : Nat)
    (errors : List (AstError × Span)) (h : c ≤ toks.length) :
    (multiplication toks c errors).2.1 ≤ toks.length + 1 := by
  unfold multiplication
  exact multiplicationLoop_cursor_le toks _ _ _ (unary_cursor_le toks c errors h)

/-- The `addition` loop keeps the cursor within one past the end. -/
theorem additionLoop_cursor_le (toks : List Token) (expr : Expr) (c : Nat)
    (errors : List (AstError × Span)) (h : c ≤ toks.length + 1) :
    (additionLoop toks expr c errors).2.1 ≤ toks.length + 1 := by
  unfold additionLoop
  split
  · dsimp only
    have hlt : c < toks.length := by
      by_contra hcc
      have hnone : peekTok toks c = none := by
        rw [peekTok]
        exact List.getElem?_eq_none (by omega)
      simp_all
    exact additionLoop_cursor_le toks _ _ _
      (multiplication_cursor_le toks (c + 1) errors (by omega))
  · exact h
termination_by toks.length - c
decreasing_by
  have hc : c < toks.length := by
    by_contra hcc
    have hnone : peekTok toks c = none := by
      rw [peekTok]
      exact List.getElem?_eq_none (by omega)
    simp_all
  have hu := multiplication_cursor toks (c + 1) errors
  omega

/-- `addition` keeps the cursor within one past the end. -/
theorem addition_cursor_le (toks : List Token) (c : Nat)
    (errors : List (AstError × Span)) (h : c ≤ toks.length) :
    (addition toks c errors).2.1 ≤ toks.length + 1 := by
  unfold addition
  exact additionLoop_cursor_le toks _ _ _ (multiplication_cursor_le toks c errors h)

/-- The `comparison` loop keeps the cursor within one past the end. -/
theorem comparisonLoop_cursor_le (toks : List Token) (expr : Expr) (c : Nat)
    (errors : List (AstError × Span)) (h : c ≤ toks.length + 1) :
    (comparisonLoop toks expr c errors).2.1 ≤ toks.length + 1 := by
  unfold comparisonLoop
  split
  · dsimp only
    have hlt : c < toks.length := by
      by_contra hcc
      have hnone : peekTok toks c = none := by
        rw [peekTok]
        exact List.getElem?_eq_none (by omega)
      simp_all
    exact comparisonLoop_cursor_le toks _ _ _
      (addition_cursor_le toks (c + 1) errors (by omega))
  · exact h
termination_by toks.length - c
decreasing_by
  have hc : c < toks.length := by
    by_contra hcc
    have hnone : peekTok toks c = none := by
      rw [peekTok]
      exact List.getElem?_eq_none (by omega)
    simp_all
  have hu := addition_cursor toks (c + 1) errors
  omega

/-- `comparison` keeps the cursor within one past the end. -/
theorem comparison_cursor_le (toks : List Token) (c : Nat)
    (errors : List (AstError × Span)) (h : c ≤ toks.length) :
    (comparison toks c errors).2.1 ≤ toks.length + 1 := by
  unfold comparison
  exact comparisonLoop_cursor_le toks _ _ _ (addition_cursor_le toks c errors h)

/-- The `equality` loop keeps the cursor within one past the end. -/
theorem equalityLoop_cursor_le (toks : List Token) (expr : Expr) (c : Nat)
    (errors : List (AstError × Span)) (h : c ≤ toks.length + 1) :
    (equalityLoop toks expr c errors).2.1 ≤ toks.length + 1 := by
  unfold equalityLoop
  split
  · dsimp only
    have hlt : c < toks.length := by
      by_contra hcc
      have hnone : peekTok toks c = none := by
        rw [peekTok]
        exact List.getElem?_eq_none (by omega)
      simp_all
    exact equalityLoop_cursor_le toks _ _ _
      (comparison_cursor_le toks (c + 1) errors (by omega))
  · exact h
termination_by toks.length - c
decreasing_by
  have hc : c < toks.length := by
    by_contra hcc
    have hnone : peekTok toks c = none := by
      rw [peekTok]
      exact List.getElem?_eq_none (by omega)
    simp_all
  have hu := comparison_cursor toks (c + 1) errors
  omega

/-- `equality` keeps the cursor within one past the end. -/
theorem equality_cursor_le (toks : List Token) (c : Nat)
    (errors : List (AstError × Span)) (h : c ≤ toks.length) :
    (equality toks c errors).2.1 ≤ toks.length + 1 := by
  unfold equality
  exact equalityLoop_cursor_le toks _ _ _ (comparison_cursor_le toks c errors h)

/-- `primary` adds at most one error while advancing one position. -/
theorem primary_errlen (toks : List Token) (c : Nat)
    (errors : List (AstError × Span)) :
    (primary toks c errors).2.2.length + c ≤
      errors.length + (primary toks c errors).2.1 := by
  unfold primary
  split <;> simp <;> omega

/-- `unary` adds at most one error per position consumed. -/
theorem unary_errlen (toks : List Token) (c : Nat)
    (errors : List (AstError × Span)) :
    (unary toks c errors).2.2.length + c ≤
      errors.length + (unary toks c errors).2.1 := by
  unfold unary
  split
  · split
    · dsimp only
      have ih := unary_errlen toks (c + 1) errors
      omega
    · exact primary_errlen toks c errors
  · exact primary_errlen toks c errors
termination_by toks.length - c
decreasing_by
  have : c < toks.length := by
    by_contra hc
    have hnone : peekTok toks c = none := by
      rw [peekTok]
      exact List.getElem?_eq_none (by omega)
    simp_all
  omega

/-- The `multiplication` loop adds at most one error per position. -/
theorem multiplicationLoop_errlen (toks : List Token) (expr : Expr) (c : Nat)
    (errors : List (AstError × Span)) :
    (multiplicationLoop toks expr c errors).2.2.length + c ≤
      errors.length + (multiplicationLoop toks expr c errors).2.1 := by
  unfold multiplicationLoop
  split
  · rename_i op heq
    dsimp only
    have h1 := unary_errlen toks (c + 1) errors
    have h2 := multiplicationLoop_errlen toks
      ⟨.Binary (.mk expr op (unary toks (c + 1) errors).1),
        ⟨expr.span.start, (unary toks (c + 1) errors).1.span.stop⟩⟩
      (unary toks (c + 1) errors).2.1 (unary toks (c + 1) errors).2.2
    omega
  · simp
termination_by toks.length - c
decreasing_by
  have hc : c < toks.length := by
    by_contra hcc
    have hnone : peekTok toks c = none := by
      rw [peekTok]
      exact List.getElem?_eq_none (by omega)
    simp_all
  have hu := unary_cursor toks (c + 1) errors
  omega

/-- `multiplication` adds at most one error per position. -/
theorem multiplication_errlen (toks : List Token) (c : Nat)
    (errors : List (AstError × Span)) :
    (multiplication toks c errors).2.2.length + c ≤
      errors.length + (multiplication toks c errors).2.1 := by
  unfold multiplication
  have h1 := unary_errlen toks c errors
  have h2 := multiplicationLoop_errlen toks (unary toks c errors).1
    (unary toks c errors).2.1 (unary toks c errors).2.2
  dsimp only
  omega

/-- The `addition` loop adds at most one error per position. -/
theorem additionLoop_errlen (toks : List Token) (expr : Expr) (c : Nat)
    (errors : List (AstError × Span)) :
    (additionLoop toks expr c errors).2.2.length + c ≤
      errors.length + (additionLoop toks expr c errors).2.1 := by
  unfold additionLoop
  split
  · rename_i op heq
    dsimp only
    have h1 := multiplication_errlen toks (c + 1) errors
    have h2 := additionLoop_errlen toks
      ⟨.Binary (.mk expr op (multiplication toks (c + 1) errors).1),
        ⟨expr.span.start, (multiplication toks (c + 1) errors).1.span.stop⟩⟩
      (multiplication toks (c + 1) errors).2.1 (multiplication toks (c + 1) errors).2.2
    omega
  · simp
termination_by toks.length - c
decreasing_by
  have hc : c < toks.length := by
    by_contra hcc
    have hnone : peekTok toks c = none := by
      rw [peekTok]
      exact List.getElem?_eq_none (by omega)
    simp_all
  have hu := multiplication_cursor toks (c + 1) errors
  omega

/-- `addition` adds at most one error per position. -/
theorem addition_errlen (toks : List Token) (c : Nat)
    (errors : List (AstError × Span)) :
    (addition toks c errors).2.2.length + c ≤
      errors.length + (addition toks c errors).2.1 := by
  unfold addition
  have h1 := multiplication_errlen toks c errors
  have h2 := additionLoop_errlen toks (multiplication toks c errors).1
    (multiplication toks c errors).2.1 (multiplication toks c errors).2.2
  dsimp only
  omega

/-- The `comparison` loop adds at most one error per position. -/
theorem comparisonLoop_errlen (toks : List Token) (expr : Expr) (c : Nat)
    (errors : List (AstError × Span)) :
    (comparisonLoop toks expr c errors).2.2.length + c ≤
      errors.length + (comparisonLoop toks expr c errors).2.1 := by
  unfold comparisonLoop
  split
  · rename_i op heq
    dsimp only
    have h1 := addition_errlen toks (c + 1) errors
    have h2 := comparisonLoop_errlen toks
      ⟨.Binary (.mk expr op (addition toks (c + 1) errors).1),
        ⟨expr.span.start, (addition toks (c + 1) errors).1.span.stop⟩⟩
      (addition toks (c + 1) errors).2.1 (addition toks (c + 1) errors).2.2
    omega
  · simp
termination_by toks.length - c
decreasing_by
  have hc : c < toks.length := by
    by_contra hcc
    have hnone : peekTok toks c = none := by
      rw [peekTok]
      exact List.getElem?_eq_none (by omega)
    simp_all
  have hu := addition_cursor toks (c + 1) errors
  omega

/-- `comparison` adds at most one error per position. -/
theorem comparison_errlen (toks : List Token) (c : Nat)
    (errors : List (AstError × Span)) :
    (comparison toks c errors).2.2.length + c ≤
      errors.length + (comparison toks c errors).2.1 := by
  unfold comparison
  have h1 := addition_errlen toks c errors
  have h2 := comparisonLoop_errlen toks (addition toks c errors).1
    (addition toks c errors).2.1 (addition toks c errors).2.2
  dsimp only
  omega

/-- The `equality` loop adds at most one error per position. -/
theorem equalityLoop_errlen (toks : List Token) (expr : Expr) (c : Nat)
    (errors : List (AstError × Span)) :
    (equalityLoop toks expr c errors).2.2.length + c ≤
      errors.length + (equalityLoop toks expr c errors).2.1 := by
  unfold equalityLoop
  split
  · rename_i op heq
    dsimp only
    have h1 := comparison_errlen toks (c + 1) errors
    have h2 := equalityLoop_errlen toks
      ⟨.Binary (.mk expr op (comparison toks (c + 1) errors).1),
        ⟨expr.span.start, (comparison toks (c + 1) errors).1.span.stop⟩⟩
      (comparison toks (c + 1) errors).2.1 (comparison toks (c + 1) errors).2.2
    omega
  · simp
termination_by toks.length - c
decreasing_by
  have hc : c < toks.length := by
    by_contra hcc
    have hnone : peekTok toks c = none := by
      rw [peekTok]
      exact List.getElem?_eq_none (by omega)
    simp_all
  have hu := comparison_cursor toks (c + 1) errors
  omega

/-- `equality` adds at most one error per position. -/
theorem equality_errlen (toks : List Token) (c : Nat)
    (errors : List (AstError × Span)) :
    (equality toks c errors).2.2.length + c ≤
      errors.length + (equality toks c errors).2.1 := by
  unfold equality
  have h1 := comparison_errlen toks c errors
  have h2 := equalityLoop_errlen toks (comparison toks c errors).1
    (comparison toks c errors).2.1 (comparison toks c errors).2.2
  dsimp only
  omega

/-! ### Unfolding equations of the parser, conditioned on the lookahead -/

/-- `primary` against a literal token. -/
theorem primary_lit (toks : List Token) (c : Nat) (errors : List (AstError × Span))
    (l : Literal) (sp : Span) (hp : peekTok toks c = some ⟨.Literal l, sp⟩) :
    primary toks c errors = (⟨.Primary (.Literal l), sp⟩, c + 1, errors) := by
  unfold primary
  rw [hp]

/-- `primary` against an identifier token. -/
theorem primary_ident (toks : List Token) (c : Nat) (errors : List (AstError × Span))
    (i : String) (sp : Span) (hp : peekTok toks c = some ⟨.Identifier i, sp⟩) :
    primary toks c errors = (⟨.Primary (.Identifier i), sp⟩, c + 1, errors) := by
  unfold primary
  rw [hp]

/-- Lookahead shapes on which `primary` has no production: a scalar token
or an exhausted cursor. -/
def primaryMiss : Option Token → Bool
  | some ⟨.Scalar _, _⟩ => true
  | none => true
  | _ => false

/-- The error-recovery equation of `primary`: on any miss it records one
`Unimplemented` error, consumes exactly one position unconditionally, and
yields an `Invalid` node spanning the consumed token, or `Span(0, 0)` if
the cursor was exhausted. -/
theorem primary_miss (toks : List Token) (c : Nat) (errors : List (AstError × Span))
    (hp : primaryMiss (peekTok toks c) = true) :
    primary toks c errors =
      (⟨.Invalid, ((peekTok toks c).map Token.span).getD ⟨0, 0⟩⟩, c + 1,
        errors ++ [(.Unimplemented, ((peekTok toks c).map Token.span).getD ⟨0, 0⟩)]) := by
  unfold primary
  split
  · rename_i heq
    rw [heq] at hp
    simp [primaryMiss] at hp
  · rename_i heq
    rw [heq] at hp
    simp [primaryMiss] at hp
  · rfl

/-- `unary` with no lookahead defers to `primary`. -/
theorem unary_end (toks : List Token) (c : Nat) (errors : List (AstError × Span))
    (hp : peekTok toks c = none) :
    unary toks c errors = primary toks c errors := by
  conv_lhs => rw [unary.eq_def]
  rw [hp]

/-- `unary` with a non-prefix-operator lookahead defers to `primary`. -/
theorem unary_noop (toks : List Token) (c : Nat) (errors : List (AstError × Span))
    (t : Token) (hp : peekTok toks c = some t) (ho : t.as_unary = none) :
    unary toks c errors = primary toks c errors := by
  conv_lhs => rw [unary.eq_def]
  rw [hp]
  dsimp only
  rw [ho]

/-- The prefix-operator equation of `unary`. -/
theorem unary_step (toks : List Token) (c : Nat) (errors : List (AstError × Span))
    (t : Token) (op : SpSc) (hp : peekTok toks c = some t) (ho : t.as_unary = some op) :
    unary toks c errors =
      (⟨.Unary (.mk op (unary toks (c + 1) errors).1),
        ⟨op.sp.start, (unary toks (c + 1) errors).1.span.stop⟩⟩,
       (unary toks (c + 1) errors).2.1, (unary toks (c + 1) errors).2.2) := by
  conv_lhs => rw [unary.eq_def]
  rw [hp]
  dsimp only
  rw [ho]

/-- A binary fold loop with no lookahead stops. -/
theorem multiplicationLoop_end (toks : List Token) (expr : Expr) (c : Nat)
    (errors : List (AstError × Span)) (hp : peekTok toks c = none) :
    multiplicationLoop toks expr c errors = (expr, c, errors) := by
  conv_lhs => rw [multiplicationLoop.eq_def]
  rw [hp]
  dsimp only [Option.map]

/-- A binary fold loop stops when the lookahead is not one of its
operators. -/
theorem multiplicationLoop_noop (toks : List Token) (expr : Expr) (c : Nat)
    (errors : List (AstError × Span)) (t : Token) (hp : peekTok toks c = some t)
    (ho : t.as_multiplication = none) :
    multiplicationLoop toks expr c errors = (expr, c, errors) := by
  conv_lhs => rw [multiplicationLoop.eq_def]
  rw [hp]
  dsimp only [Option.map]
  rw [ho]

/-- The fold equation of the `multiplication` loop: with a `*`/`/`/`%`
lookahead it consumes the operator, parses a `unary` right operand, and
continues with `Binary(expr, op, rhs)` as the accumulator. -/
theorem multiplicationLoop_step (toks : List Token) (expr : Expr) (c : Nat)
    (errors : List (AstError × Span)) (t : Token) (op : SpSc)
    (hp : peekTok toks c = some t) (ho : t.as_multiplication = some op) :
    multiplicationLoop toks expr c errors =
      multiplicationLoop toks
        ⟨.Binary (.mk expr op (unary toks (c + 1) errors).1),
          ⟨expr.span.start, (unary toks (c + 1) errors).1.span.stop⟩⟩
        (unary toks (c + 1) errors).2.1 (unary toks (c + 1) errors).2.2 := by
  conv_lhs => rw [multiplicationLoop.eq_def]
  rw [hp]
  dsimp only [Option.map]
  rw [ho]

/-- `additionLoop` with no lookahead stops. -/
theorem additionLoop_end (toks : List Token) (expr : Expr) (c : Nat)
    (errors : List (AstError × Span)) (hp : peekTok toks c = none) :
    additionLoop toks expr c errors = (expr, c, errors) := by
  conv_lhs => rw [additionLoop.eq_def]
  rw [hp]
  dsimp only [Option.map]

/-- `additionLoop` stops on a non-`+`/`-` lookahead. -/
theorem additionLoop_noop (toks : List Token) (expr : Expr) (c : Nat)
    (errors : List (AstError × Span)) (t : Token) (hp : peekTok toks c = some t)
    (ho : t.as_addition = none) :
    additionLoop toks expr c errors = (expr, c, errors) := by
  conv_lhs => rw [additionLoop.eq_def]
  rw [hp]
  dsimp only [Option.map]
  rw [ho]

/-- The fold equation of the `addition` loop: with a `+`/`-` lookahead it
consumes the operator, parses a `multiplication` right operand, and
continues with `Binary(expr, op, rhs)` as the accumulator — the
left-associative `expr = Binary(expr, op, next_level())` fold. -/
theorem additionLoop_step (toks : List Token) (expr : Expr) (c : Nat)
    (errors : List (AstError × Span)) (t : Token) (op : SpSc)
    (hp : peekTok toks c = some t) (ho : t.as_addition = some op) :
    additionLoop toks expr c errors =
      additionLoop toks
        ⟨.Binary (.mk expr op (multiplication toks (c + 1) errors).1),
          ⟨expr.span.start, (multiplication toks (c + 1) errors).1.span.stop⟩⟩
        (multiplication toks (c + 1) errors).2.1
        (multiplication toks (c + 1) errors).2.2 := by
  conv_lhs => rw [additionLoop.eq_def]
  rw [hp]
  dsimp only [Option.map]
  rw [ho]

/-- `comparisonLoop` with no lookahead stops. -/
theorem comparisonLoop_end (toks : List Token) (expr : Expr) (c : Nat)
    (errors : List (AstError × Span)) (hp : peekTok toks c = none) :
    comparisonLoop toks expr c errors = (expr, c, errors) := by
  conv_lhs => rw [comparisonLoop.eq_def]
  rw [hp]
  dsimp only [Option.map]

/-- `comparisonLoop` stops on a non-comparison lookahead. -/
theorem comparisonLoop_noop (toks : List Token) (expr : Expr) (c : Nat)
    (errors : List (AstError × Span)) (t : Token) (hp : peekTok toks c = some t)
    (ho : t.as_comparison = none) :
    comparisonLoop toks expr c errors = (expr, c, errors) := by
  conv_lhs => rw [comparisonLoop.eq_def]
  rw [hp]
  dsimp only [Option.map]
  rw [ho]

/-- The fold equation of the `comparison` loop. -/
theorem comparisonLoop_step (toks : List Token) (expr : Expr) (c : Nat)
    (errors : List (AstError × Span)) (t : Token) (op : SpSc)
    (hp : peekTok toks c = some t) (ho : t.as_comparison = some op) :
    comparisonLoop toks expr c errors =
      comparisonLoop toks
        ⟨.Binary (.mk expr op (addition toks (c + 1) errors).1),
          ⟨expr.span.start, (addition toks (c + 1) errors).1.span.stop⟩⟩
        (addition toks (c + 1) errors).2.1 (addition toks (c + 1) errors).2.2 := by
  conv_lhs => rw [comparisonLoop.eq_def]
  rw [hp]
  dsimp only [Option.map]
  rw [ho]

/-- `equalityLoop` with no lookahead stops. -/
theorem equalityLoop_end (toks : List Token) (expr : Expr) (c : Nat)
    (errors : List (AstError × Span)) (hp : peekTok toks c = none) :
    equalityLoop toks expr c errors = (expr, c, errors) := by
  conv_lhs => rw [equalityLoop.eq_def]
  rw [hp]
  dsimp only [Option.map]

/-- `equalityLoop` stops on a non-`==`/`!=` lookahead. -/
theorem equalityLoop_noop (toks : List Token) (expr : Expr) (c : Nat)
    (errors : List (AstError × Span)) (t : Token) (hp : peekTok toks c = some t)
    (ho : t.as_equality = none) :
    equalityLoop toks expr c errors = (expr, c, errors) := by
  conv_lhs => rw [equalityLoop.eq_def]
  rw [hp]
  dsimp only [Option.map]
  rw [ho]

/-- The fold equation of the `equality` loop. -/
theorem equalityLoop_step (toks : List Token) (expr : Expr) (c : Nat)
    (errors : List (AstError × Span)) (t : Token) (op : SpSc)
    (hp : peekTok toks c = some t) (ho : t.as_equality = some op) :
    equalityLoop toks expr c errors =
      equalityLoop toks
        ⟨.Binary (.mk expr op (comparison toks (c + 1) errors).1),
          ⟨expr.span.start, (comparison toks (c + 1) errors).1.span.stop⟩⟩
        (comparison toks (c + 1) errors).2.1 (comparison toks (c + 1) errors).2.2 := by
  conv_lhs => rw [equalityLoop.eq_def]
  rw [hp]
  dsimp only [Option.map]
  rw [ho]

/-! ### Rendering integer literals (the `render` side of the decode/render
round trip) -/

/-- The canonical character for a digit value below 16 (`0`–`9`, then
lowercase `a`–`f`). -/
def digitCharOf (k : Nat) : Char :=
  if k < 10 then Char.ofNat (48 + k) else Char.ofNat (87 + k)

/-- Big-endian digit list of `n` in base `b` (for `b ≥ 2`). -/
def toDigitsBE (b n : Nat) : List Nat :=
  if n < b ∨ b ≤ 1 then [n] else toDigitsBE b (n / b) ++ [n % b]
termination_by n
decreasing_by
  rename_i hcond
  push_neg at hcond
  exact Nat.div_lt_self (by omega) (by omega)

/-- The rendered digit text of `n` in base `b`. -/
def render (b n : Nat) : List Char := (toDigitsBE b n).map digitCharOf

/-- The rendered decimal literal text of `n`. -/
def renderDec (n : Nat) : List Char := render 10 n

/-- The rendered `0x`-prefixed hexadecimal literal text of `n`. -/
def renderHex (n : Nat) : List Char := '0' :: 'x' :: render 16 n

/-- The rendered `0o`-prefixed octal literal text of `n`. -/
def renderOct (n : Nat) : List Char := '0' :: 'o' :: render 8 n

/-- The rendered `0b`-prefixed binary literal text of `n`. -/
def renderBin (n : Nat) : List Char := '0' :: 'b' :: render 2 n

/-- Digits produced by `toDigitsBE` are below the base, and at least one
digit is produced. -/
theorem toDigitsBE_bounds (b : Nat) (hb : 2 ≤ b) :
    ∀ n, (∀ d ∈ toDigitsBE b n, d < b) ∧ toDigitsBE b n ≠ [] := by
  intro n
  induction n using Nat.strong_induction_on with
  | _ n ih =>
    rw [toDigitsBE]
    split
    · rename_i hcond
      constructor
      · intro d hd
        simp at hd
        omega
      · simp
    · rename_i hcond
      push_neg at hcond
      have hdiv : n / b < n := Nat.div_lt_self (by omega) (by omega)
      obtain ⟨ih1, -⟩ := ih (n / b) hdiv
      constructor
      · intro d hd
        simp at hd
        rcases hd with hd | hd
        · exact ih1 d hd
        · have := Nat.mod_lt n (show 0 < b by omega)
          omega
      · simp

/-- Folding the digits of `n` back with `acc * b + d` recovers `n`. -/
theorem toDigitsBE_foldl (b : Nat) (hb : 2 ≤ b) :
    ∀ n, (toDigitsBE b n).foldl (fun acc d => acc * b + d) 0 = n := by
  intro n
  induction n using Nat.strong_induction_on with
  | _ n ih =>
    rw [toDigitsBE]
    split
    · simp
    · rename_i hcond
      push_neg at hcond
      have hdiv : n / b < n := Nat.div_lt_self (by omega) (by omega)
      rw [List.foldl_append, ih (n / b) hdiv]
      simp
      exact Nat.div_add_mod' n b

/-- The numeric value of a rendered digit character. -/
theorem digitVal_digitCharOf (d : Nat) (hd : d < 16) :
    digitVal (digitCharOf d) = some d := by
  interval_cases d <;> rfl

/-- The character code of a rendered digit: decimal digits land in
`48`–`57`, the hex letters in `97`–`102`. -/
theorem digitCharOf_toNat (d : Nat) (hd : d < 16) :
    (digitCharOf d).toNat = if d < 10 then 48 + d else 87 + d := by
  interval_cases d <;> rfl

/-- Rendered digit characters are valid radix digits. -/
theorem isRadixDigit_digitCharOf (b d : Nat) (hd : d < b) (hb : b ≤ 16) :
    isRadixDigit b (digitCharOf d) = true := by
  rw [isRadixDigit, digitVal_digitCharOf d (by omega)]
  simp
  omega

/-- Rendered decimal digit characters satisfy the `[0-9]` class. -/
theorem isDecDigit_digitCharOf (d : Nat) (hd : d < 10) :
    isDecDigit (digitCharOf d) = true := by
  interval_cases d <;> rfl

/-- Rendered hex digit characters satisfy the `[A-Fa-f0-9]` class. -/
theorem isHexDigit_digitCharOf (d : Nat) (hd : d < 16) :
    isHexDigit (digitCharOf d) = true := by
  interval_cases d <;> rfl

/-- Rendered digit characters are never the underscore separator. -/
theorem digitCharOf_ne_underscore (d : Nat) (hd : d < 16) :
    digitCharOf d ≠ '_' := by
  interval_cases d <;> decide

/-- Rendered digit characters are never a sign. -/
theorem digitCharOf_ne_plus (d : Nat) (hd : d < 16) :
    digitCharOf d ≠ '+' := by
  interval_cases d <;> decide

/-- A rendered decimal digit differs from any character whose code is
outside `48`–`57`. -/
theorem digitCharOf_ne (e : Nat) (he : e < 10) (t : Char)
    (ht : t.toNat < 48 ∨ 57 < t.toNat) : digitCharOf e ≠ t := by
  intro hEq
  have hb := digitCharOf_toNat e (by omega)
  rw [if_pos he] at hb
  rw [hEq] at hb
  omega

/-- Rendered decimal digits are not letters. -/
theorem isLetter_digitCharOf (e : Nat) (he : e < 10) :
    isLetter (digitCharOf e) = false := by
  interval_cases e <;> rfl

/-- Rendered octal digit characters satisfy the `[0-7]` class. -/
theorem isOctDigit_digitCharOf (d : Nat) (hd : d < 8) :
    isOctDigit (digitCharOf d) = true := by
  interval_cases d <;> rfl

/-- Rendered binary digit characters satisfy the `[01]` class. -/
theorem isBinDigit_digitCharOf (d : Nat) (hd : d < 2) :
    isBinDigit (digitCharOf d) = true := by
  interval_cases d <;> rfl

/-- Folding the radix-parse accumulator over rendered digit characters
agrees with folding over the digit values. -/
theorem foldl_digits (b : Nat) (hb : b ≤ 16) :
    ∀ (D : List Nat) (a : Nat), (∀ d ∈ D, d < b) →
      (D.map digitCharOf).foldl (fun acc c => acc * b + ((digitVal c).getD 0)) a =
        D.foldl (fun acc d => acc * b + d) a := by
  intro D
  induction D with
  | nil => intro a h; rfl
  | cons d D ih =>
    intro a h
    rw [List.map_cons, List.foldl_cons, List.foldl_cons,
      digitVal_digitCharOf d (by have := h d (by simp); omega)]
    exact ih _ (fun x hx => h x (by simp [hx]))

/-- Rendered digit strings contain no underscores, so underscore
filtering leaves them unchanged. -/
theorem filter_underscores_map (D : List Nat) (hD : ∀ d ∈ D, d < 16) :
    filter_underscores (D.map digitCharOf) = D.map digitCharOf := by
  rw [filter_underscores, List.filter_eq_self]
  intro c hc
  rw [List.mem_map] at hc
  obtain ⟨d, hd, rfl⟩ := hc
  simp [digitCharOf_ne_underscore d (hD d hd)]

/-- The empty input lexes to nothing regardless of fuel. -/
theorem lexLoop_nil : ∀ fuel p, lexLoop fuel [] p = [] := by
  intro fuel p
  cases fuel <;> rfl

/-- `u64::from_str_radix` over a nonempty rendered digit string recovers
the folded value, or overflows. -/
theorem radixFromStr_render (b : Nat) (hb16 : b ≤ 16) (D : List Nat)
    (hne : D ≠ []) (hD : ∀ d ∈ D, d < b) :
    radixFromStr b (D.map digitCharOf) =
      if D.foldl (fun a d => a * b + d) 0 < 2 ^ 64 then
        .ok (D.foldl (fun a d => a * b + d) 0)
      else .error .InvalidInteger := by
  obtain ⟨d0, D', rfl⟩ : ∃ d0 D', D = d0 :: D' := by
    cases D with
    | nil => exact absurd rfl hne
    | cons d0 D' => exact ⟨d0, D', rfl⟩
  rw [radixFromStr.eq_def]
  have h016 : d0 < 16 := by have := hD d0 (by simp); omega
  simp only [List.map_cons]
  rw [if_neg (digitCharOf_ne_plus d0 h016)]
  rw [if_pos]
  · rw [← List.map_cons, foldl_digits b hb16 (d0 :: D') 0 hD]
  · constructor
    · simp
    · rw [← List.map_cons, List.all_eq_true]
      intro c hc
      rw [List.mem_map] at hc
      obtain ⟨d, hd, rfl⟩ := hc
      exact isRadixDigit_digitCharOf b d (hD d hd) hb16

/-- A selected rule of `pickBest` is a rule of the table that produced the
selected length. -/
theorem pickBest_mem :
    ∀ (rs : List (Scalar × (Char → List Char → Option Nat))) (c : Char)
      (cs : List Char) (sc : Scalar) (n : Nat),
      pickBest rs c cs = some (sc, n) →
      ∃ m, (sc, m) ∈ rs ∧ m c cs = some n := by
  intro rs
  induction rs with
  | nil => intro c cs sc n h; simp [pickBest] at h
  | cons p rest ih =>
    intro c cs sc n h
    obtain ⟨sc1, m1⟩ := p
    rw [pickBest] at h
    cases hm : m1 c cs with
    | none =>
      rw [hm] at h
      dsimp only at h
      obtain ⟨m, hmem, hm2⟩ := ih c cs sc n h
      exact ⟨m, List.mem_cons_of_mem _ hmem, hm2⟩
    | some k =>
      rw [hm] at h
      cases hrest : pickBest rest c cs with
      | none =>
        rw [hrest] at h
        dsimp only at h
        simp only [Option.some.injEq, Prod.mk.injEq] at h
        obtain ⟨rfl, rfl⟩ := h
        exact ⟨m1, List.mem_cons_self _ _, hm⟩
      | some v =>
        obtain ⟨sc2, n2⟩ := v
        rw [hrest] at h
        dsimp only at h
        split at h
        · simp only [Option.some.injEq, Prod.mk.injEq] at h
          obtain ⟨rfl, rfl⟩ := h
          obtain ⟨m, hmem, hm2⟩ := ih c cs sc2 n2 hrest
          exact ⟨m, List.mem_cons_of_mem _ hmem, hm2⟩
        · simp only [Option.some.injEq, Prod.mk.injEq] at h
          obtain ⟨rfl, rfl⟩ := h
          exact ⟨m1, List.mem_cons_self _ _, hm⟩

/-- If some rule of the table matches with length `n` and every match of
any rule is either that designated `(sc, n)` or strictly shorter, then
maximal munch selects `(sc, n)`. -/
theorem pickBest_dominant :
    ∀ (rs : List (Scalar × (Char → List Char → Option Nat))) (c : Char)
      (cs : List Char) (sc : Scalar) (n : Nat),
      (∀ p ∈ rs, ∀ k, p.2 c cs = some k → (p.1 = sc ∧ k = n) ∨ k < n) →
      (∃ m, (sc, m) ∈ rs ∧ m c cs = some n) →
      pickBest rs c cs = some (sc, n) := by
  intro rs
  induction rs with
  | nil =>
    intro c cs sc n hall hex
    obtain ⟨m, hmem, -⟩ := hex
    simp at hmem
  | cons p rest ih =>
    intro c cs sc n hall hex
    obtain ⟨sc1, m1⟩ := p
    rw [pickBest]
    cases hm : m1 c cs with
    | none =>
      obtain ⟨m, hmem, hm2⟩ := hex
      have hmem2 : (sc, m) ∈ rest := by
        rcases List.mem_cons.mp hmem with heq | h2
        · exfalso
          have : m1 = m := congrArg Prod.snd heq.symm
          rw [this] at hm
          rw [hm] at hm2
          exact absurd hm2 (by simp)
        · exact h2
      have hrest := ih c cs sc n
        (fun q hq => hall q (List.mem_cons_of_mem _ hq)) ⟨m, hmem2, hm2⟩
      rw [hrest]
    | some k =>
      have hk := hall (sc1, m1) (List.mem_cons_self _ _) k hm
      rcases hk with ⟨rfl, rfl⟩ | hlt
      · -- the head is the designated match
        cases hrest : pickBest rest c cs with
        | none => rfl
        | some v =>
          obtain ⟨sc2, n2⟩ := v
          obtain ⟨m2, hmem2, hm22⟩ := pickBest_mem rest c cs sc2 n2 hrest
          have h2 := hall (sc2, m2) (List.mem_cons_of_mem _ hmem2) n2 hm22
          have hn2 : n2 ≤ k := by rcases h2 with ⟨-, rfl⟩ | h2 <;> omega
          dsimp only
          rw [if_neg (show ¬ n2 > k by omega)]
      · -- the head match is shorter; the designated rule is in the tail
        obtain ⟨m, hmem, hm2⟩ := hex
        have hmem2 : (sc, m) ∈ rest := by
          rcases List.mem_cons.mp hmem with heq | h2
          · exfalso
            have : m1 = m := congrArg Prod.snd heq.symm
            rw [this] at hm
            rw [hm] at hm2
            simp at hm2
            omega
          · exact h2
        have hrest := ih c cs sc n
          (fun q hq => hall q (List.mem_cons_of_mem _ hq)) ⟨m, hmem2, hm2⟩
        rw [hrest]
        dsimp only
        rw [if_pos (show n > k by omega)]

/-! ### Digit-run computations on rendered digit strings -/

/-- One step of `decTail` on a non-underscore digit character. -/
theorem decTail_cons (c : Char) (cs : List Char) (hne : c ≠ '_')
    (hd : isDecDigit c = true) : decTail (c :: cs) = 1 + decTail cs := by
  rcases cs with - | ⟨c2, rest⟩
  · simp [decTail, hd]
  · rw [decTail.eq_def]
    split
    · rename_i heq
      simp only [List.cons.injEq] at heq
      exact absurd heq.1 hne
    · rename_i heq
      simp only [List.cons.injEq] at heq
      obtain ⟨rfl, rfl⟩ := heq
      rw [if_pos hd]
    · rename_i heq
      simp at heq

/-- `decTail` consumes an entire rendered decimal digit run. -/
theorem decTail_digits : ∀ es : List Nat, (∀ d ∈ es, d < 10) →
    decTail (es.map digitCharOf) = es.length := by
  intro es
  induction es with
  | nil => intro h; rfl
  | cons e es ih =>
    intro h
    have he : e < 10 := h e (by simp)
    rw [List.map_cons,
      decTail_cons _ _ (digitCharOf_ne_underscore e (by omega))
        (isDecDigit_digitCharOf e he),
      ih (fun d hd => h d (by simp [hd]))]
    simp only [List.length_cons]
    omega

/-- One step of `radixTail` on a non-underscore digit character. -/
theorem radixTail_cons (h : Char → Bool) (c : Char) (cs : List Char)
    (hne : c ≠ '_') (hd : h c = true) :
    radixTail h (c :: cs) = 1 + radixTail h cs := by
  rcases cs with - | ⟨c2, rest⟩
  · simp [radixTail, hd]
  · rw [radixTail.eq_def]
    split
    · rename_i heq
      simp only [List.cons.injEq] at heq
      exact absurd heq.1 hne
    · rename_i heq
      simp only [List.cons.injEq] at heq
      obtain ⟨rfl, rfl⟩ := heq
      rw [if_pos hd]
    · rename_i heq
      simp at heq

/-- `radixTail` consumes an entire rendered digit run of its class. -/
theorem radixTail_digits (h : Char → Bool) :
    ∀ es : List Nat, (∀ d ∈ es, d < 16) →
      (∀ d ∈ es, h (digitCharOf d) = true) →
      radixTail h (es.map digitCharOf) = es.length := by
  intro es
  induction es with
  | nil => intro h16 hh; rfl
  | cons e es ih =>
    intro h16 hh
    rw [List.map_cons,
      radixTail_cons h _ _ (digitCharOf_ne_underscore e (h16 e (by simp)))
        (hh e (by simp)),
      ih (fun d hd => h16 d (by simp [hd])) (fun d hd => hh d (by simp [hd]))]
    simp only [List.length_cons]
    omega

/-- Dropping the length of the underlying list empties a mapped list. -/
theorem map_drop_length (f : Nat → Char) (l : List Nat) :
    (l.map f).drop l.length = [] := by
  rw [← List.length_map l f]
  exact List.drop_length _

/-- Taking the length of the underlying list keeps a mapped list whole. -/
theorem map_take_length (f : Nat → Char) (l : List Nat) :
    (l.map f).take l.length = l.map f := by
  rw [← List.length_map l f]
  exact List.take_length _

set_option maxHeartbeats 2000000 in
/-- On a rendered decimal digit string, the decimal integer rule is the
maximal-munch winner, matching the entire string. -/
theorem pickBest_dec (e1 : Nat) (es : List Nat) (he1 : e1 < 10)
    (hes : ∀ d ∈ es, d < 10) :
    pickBest rules (digitCharOf e1) (es.map digitCharOf) =
      some (.IntegerLiteral, es.length) := by
  apply pickBest_dominant
  · intro p hp k hk
    fin_cases hp
    · simp [matchWs, isWsChar, digitCharOf_ne e1 he1 ' ' (by decide),
        digitCharOf_ne e1 he1 '\n' (by decide), digitCharOf_ne e1 he1 '\t' (by decide),
        digitCharOf_ne e1 he1 '\r' (by decide)] at hk
    · simp [matchTok, digitCharOf_ne e1 he1 '(' (by decide)] at hk
    · simp [matchTok, digitCharOf_ne e1 he1 ')' (by decide)] at hk
    · simp [matchTok, digitCharOf_ne e1 he1 '\x7b' (by decide)] at hk
    · simp [matchTok, digitCharOf_ne e1 he1 '\x7d' (by decide)] at hk
    · simp [matchTok, digitCharOf_ne e1 he1 '[' (by decide)] at hk
    · simp [matchTok, digitCharOf_ne e1 he1 ']' (by decide)] at hk
    · simp [matchTok, digitCharOf_ne e1 he1 '+' (by decide)] at hk
    · simp [matchTok, digitCharOf_ne e1 he1 '-' (by decide)] at hk
    · simp [matchTok, digitCharOf_ne e1 he1 '*' (by decide)] at hk
    · simp [matchTok, digitCharOf_ne e1 he1 '/' (by decide)] at hk
    · simp [matchTok, digitCharOf_ne e1 he1 '%' (by decide)] at hk
    · simp [matchTok, digitCharOf_ne e1 he1 '|' (by decide)] at hk
    · simp [matchTok, digitCharOf_ne e1 he1 '&' (by decide)] at hk
    · simp [matchTok, digitCharOf_ne e1 he1 '^' (by decide)] at hk
    · simp [matchTok, digitCharOf_ne e1 he1 '.' (by decide)] at hk
    · simp [matchTok, digitCharOf_ne e1 he1 ',' (by decide)] at hk
    · simp [matchTok, digitCharOf_ne e1 he1 '_' (by decide)] at hk
    · simp [matchTok, digitCharOf_ne e1 he1 '=' (by decide)] at hk
    · simp [matchTok, digitCharOf_ne e1 he1 '!' (by decide)] at hk
    · simp [matchTok, digitCharOf_ne e1 he1 '?' (by decide)] at hk
    · simp [matchTok, digitCharOf_ne e1 he1 '~' (by decide)] at hk
    · simp [matchTok, digitCharOf_ne e1 he1 ':' (by decide)] at hk
    · simp [matchTok, digitCharOf_ne e1 he1 ';' (by decide)] at hk
    · simp [matchTok, digitCharOf_ne e1 he1 '|' (by decide)] at hk
    · simp [matchTok, digitCharOf_ne e1 he1 '&' (by decide)] at hk
    · simp [matchTok, digitCharOf_ne e1 he1 '+' (by decide)] at hk
    · simp [matchTok, digitCharOf_ne e1 he1 '-' (by decide)] at hk
    · simp [matchTok, digitCharOf_ne e1 he1 '*' (by decide)] at hk
    · simp [matchTok, digitCharOf_ne e1 he1 '/' (by decide)] at hk
    · simp [matchTok, digitCharOf_ne e1 he1 '%' (by decide)] at hk
    · simp [matchTok, digitCharOf_ne e1 he1 '|' (by decide)] at hk
    · simp [matchTok, digitCharOf_ne e1 he1 '&' (by decide)] at hk
    · simp [matchTok, digitCharOf_ne e1 he1 '^' (by decide)] at hk
    · simp [matchTok, digitCharOf_ne e1 he1 ':' (by decide)] at hk
    · simp [matchTok, digitCharOf_ne e1 he1 '.' (by decide)] at hk
    · simp [matchTok, digitCharOf_ne e1 he1 '=' (by decide)] at hk
    · simp [matchTok, digitCharOf_ne e1 he1 '!' (by decide)] at hk
    · simp [matchTok, digitCharOf_ne e1 he1 '>' (by decide)] at hk
    · simp [matchTok, digitCharOf_ne e1 he1 '<' (by decide)] at hk
    · simp [matchTok, digitCharOf_ne e1 he1 '>' (by decide)] at hk
    · simp [matchTok, digitCharOf_ne e1 he1 '<' (by decide)] at hk
    · simp [matchTok, digitCharOf_ne e1 he1 'l' (by decide)] at hk
    · simp [matchTok, digitCharOf_ne e1 he1 'c' (by decide)] at hk
    · simp [matchTok, digitCharOf_ne e1 he1 'g' (by decide)] at hk
    · simp [matchTok, digitCharOf_ne e1 he1 'f' (by decide)] at hk
    · simp [matchTok, digitCharOf_ne e1 he1 's' (by decide)] at hk
    · simp [matchTok, digitCharOf_ne e1 he1 'i' (by decide)] at hk
    · simp [matchTok, digitCharOf_ne e1 he1 'e' (by decide)] at hk
    · simp [matchTok, digitCharOf_ne e1 he1 'l' (by decide)] at hk
    · simp [matchTok, digitCharOf_ne e1 he1 'f' (by decide)] at hk
    · simp [matchTok, digitCharOf_ne e1 he1 'i' (by decide)] at hk
    · simp [matchTok, digitCharOf_ne e1 he1 'm' (by decide)] at hk
    · simp [matchTok, digitCharOf_ne e1 he1 'i' (by decide)] at hk
    · simp [matchTok, digitCharOf_ne e1 he1 'e' (by decide)] at hk
    · simp [matchTok, digitCharOf_ne e1 he1 'u' (by decide)] at hk
    · simp [matchTok, digitCharOf_ne e1 he1 't' (by decide)] at hk
    · simp [matchTok, digitCharOf_ne e1 he1 'c' (by decide)] at hk
    · simp [matchTok, digitCharOf_ne e1 he1 'i' (by decide)] at hk
    · simp [matchTok, digitCharOf_ne e1 he1 'r' (by decide)] at hk
    · simp [matchTok, digitCharOf_ne e1 he1 'b' (by decide)] at hk
    · simp [matchTok, digitCharOf_ne e1 he1 'c' (by decide)] at hk
    · simp [matchComment, digitCharOf_ne e1 he1 '/' (by decide)] at hk
    · simp [matchDecInt, isDecDigit_digitCharOf e1 he1] at hk
      have hdt := decTail_digits es hes
      exact Or.inl ⟨rfl, by omega⟩
    · rcases es with - | ⟨e2, es2⟩
      · simp [matchRadixInt] at hk
      · rcases es2 with - | ⟨e3, es3⟩
        · simp [matchRadixInt] at hk
        · simp [matchRadixInt, digitCharOf_ne e2 (hes e2 (by simp)) 'X' (by decide),
            digitCharOf_ne e2 (hes e2 (by simp)) 'x' (by decide)] at hk
    · rcases es with - | ⟨e2, es2⟩
      · simp [matchRadixInt] at hk
      · rcases es2 with - | ⟨e3, es3⟩
        · simp [matchRadixInt] at hk
        · simp [matchRadixInt, digitCharOf_ne e2 (hes e2 (by simp)) 'O' (by decide),
            digitCharOf_ne e2 (hes e2 (by simp)) 'o' (by decide)] at hk
    · rcases es with - | ⟨e2, es2⟩
      · simp [matchRadixInt] at hk
      · rcases es2 with - | ⟨e3, es3⟩
        · simp [matchRadixInt] at hk
        · simp [matchRadixInt, digitCharOf_ne e2 (hes e2 (by simp)) 'B' (by decide),
            digitCharOf_ne e2 (hes e2 (by simp)) 'b' (by decide)] at hk
    · simp [matchFloat, isDecDigit_digitCharOf e1 he1, decTail_digits es hes,
        map_drop_length] at hk
    · simp [matchTok, digitCharOf_ne e1 he1 't' (by decide)] at hk
    · simp [matchTok, digitCharOf_ne e1 he1 'f' (by decide)] at hk
    · simp [matchString, digitCharOf_ne e1 he1 '\"' (by decide)] at hk
    · simp [matchCharLit, digitCharOf_ne e1 he1 quoteChar (by decide)] at hk
    · simp [matchByteStr, digitCharOf_ne e1 he1 'b' (by decide)] at hk
    · simp [matchByteLit, digitCharOf_ne e1 he1 'b' (by decide)] at hk
    · simp [matchIdent, isLetter_digitCharOf e1 he1,
        digitCharOf_ne e1 he1 '_' (by decide)] at hk
  · exact ⟨matchDecInt, by simp [rules],
      by simp [matchDecInt, isDecDigit_digitCharOf e1 he1, decTail_digits es hes]⟩

set_option maxHeartbeats 2000000 in
/-- On a rendered `0x`-prefixed digit string, the corresponding radix
rule is the maximal-munch winner, matching the entire string. -/
theorem pickBest_hex (e1 : Nat) (es : List Nat) (he1 : e1 < 16)
    (hes : ∀ d ∈ es, d < 16) :
    pickBest rules '0' ('x' :: digitCharOf e1 :: es.map digitCharOf) =
      some (.HexIntegerLiteral, 2 + es.length) := by
  apply pickBest_dominant
  · intro p hp k hk
    fin_cases hp
    · simp [matchWs, isWsChar] at hk
    · simp [matchTok] at hk
    · simp [matchTok] at hk
    · simp [matchTok] at hk
    · simp [matchTok] at hk
    · simp [matchTok] at hk
    · simp [matchTok] at hk
    · simp [matchTok] at hk
    · simp [matchTok] at hk
    · simp [matchTok] at hk
    · simp [matchTok] at hk
    · simp [matchTok] at hk
    · simp [matchTok] at hk
    · simp [matchTok] at hk
    · simp [matchTok] at hk
    · simp [matchTok] at hk
    · simp [matchTok] at hk
    · simp [matchTok] at hk
    · simp [matchTok] at hk
    · simp [matchTok] at hk
    · simp [matchTok] at hk
    · simp [matchTok] at hk
    · simp [matchTok] at hk
    · simp [matchTok] at hk
    · simp [matchTok] at hk
    · simp [matchTok] at hk
    · simp [matchTok] at hk
    · simp [matchTok] at hk
    · simp [matchTok] at hk
    · simp [matchTok] at hk
    · simp [matchTok] at hk
    · simp [matchTok] at hk
    · simp [matchTok] at hk
    · simp [matchTok] at hk
    · simp [matchTok] at hk
    · simp [matchTok] at hk
    · simp [matchTok] at hk
    · simp [matchTok] at hk
    · simp [matchTok] at hk
    · simp [matchTok] at hk
    · simp [matchTok] at hk
    · simp [matchTok] at hk
    · simp [matchTok] at hk
    · simp [matchTok] at hk
    · simp [matchTok] at hk
    · simp [matchTok] at hk
    · simp [matchTok] at hk
    · simp [matchTok] at hk
    · simp [matchTok] at hk
    · simp [matchTok] at hk
    · simp [matchTok] at hk
    · simp [matchTok] at hk
    · simp [matchTok] at hk
    · simp [matchTok] at hk
    · simp [matchTok] at hk
    · simp [matchTok] at hk
    · simp [matchTok] at hk
    · simp [matchTok] at hk
    · simp [matchTok] at hk
    · simp [matchTok] at hk
    · simp [matchTok] at hk
    · simp [matchTok] at hk
    · simp [matchComment] at hk
    · simp [matchDecInt, isDecDigit, decTail] at hk
      exact Or.inr (by omega)
    · simp [matchRadixInt, isHexDigit_digitCharOf e1 he1,
        radixTail_digits isHexDigit es (fun d hd => by have := hes d hd; omega)
          (fun d hd => isHexDigit_digitCharOf d (hes d hd))] at hk
      exact Or.inl ⟨rfl, by omega⟩
    · simp [matchRadixInt] at hk
    · simp [matchRadixInt] at hk
    · simp [matchFloat, decTail, isDecDigit] at hk
    · simp [matchTok] at hk
    · simp [matchTok] at hk
    · simp [matchString] at hk
    · simp [matchCharLit, quoteChar] at hk
    · simp [matchByteStr] at hk
    · simp [matchByteLit] at hk
    · simp [matchIdent, isLetter] at hk
  · refine ⟨matchRadixInt 'X' 'x' isHexDigit, by simp [rules], ?_⟩
    simp [matchRadixInt, isHexDigit_digitCharOf e1 he1,
      radixTail_digits isHexDigit es (fun d hd => by have := hes d hd; omega)
        (fun d hd => isHexDigit_digitCharOf d (hes d hd))]

set_option maxHeartbeats 2000000 in
/-- On a rendered `0o`-prefixed digit string, the corresponding radix
rule is the maximal-munch winner, matching the entire string. -/
theorem pickBest_oct (e1 : Nat) (es : List Nat) (he1 : e1 < 8)
    (hes : ∀ d ∈ es, d < 8) :
    pickBest rules '0' ('o' :: digitCharOf e1 :: es.map digitCharOf) =
      some (.OctIntegerLiteral, 2 + es.length) := by
  apply pickBest_dominant
  · intro p hp k hk
    fin_cases hp
    · simp [matchWs, isWsChar] at hk
    · simp [matchTok] at hk
    · simp [matchTok] at hk
    · simp [matchTok] at hk
    · simp [matchTok] at hk
    · simp [matchTok] at hk
    · simp [matchTok] at hk
    · simp [matchTok] at hk
    · simp [matchTok] at hk
    · simp [matchTok] at hk
    · simp [matchTok] at hk
    · simp [matchTok] at hk
    · simp [matchTok] at hk
    · simp [matchTok] at hk
    · simp [matchTok] at hk
    · simp [matchTok] at hk
    · simp [matchTok] at hk
    · simp [matchTok] at hk
    · simp [matchTok] at hk
    · simp [matchTok] at hk
    · simp [matchTok] at hk
    · simp [matchTok] at hk
    · simp [matchTok] at hk
    · simp [matchTok] at hk
    · simp [matchTok] at hk
    · simp [matchTok] at hk
    · simp [matchTok] at hk
    · simp [matchTok] at hk
    · simp [matchTok] at hk
    · simp [matchTok] at hk
    · simp [matchTok] at hk
    · simp [matchTok] at hk
    · simp [matchTok] at hk
    · simp [matchTok] at hk
    · simp [matchTok] at hk
    · simp [matchTok] at hk
    · simp [matchTok] at hk
    · simp [matchTok] at hk
    · simp [matchTok] at hk
    · simp [matchTok] at hk
    · simp [matchTok] at hk
    · simp [matchTok] at hk
    · simp [matchTok] at hk
    · simp [matchTok] at hk
    · simp [matchTok] at hk
    · simp [matchTok] at hk
    · simp [matchTok] at hk
    · simp [matchTok] at hk
    · simp [matchTok] at hk
    · simp [matchTok] at hk
    · simp [matchTok] at hk
    · simp [matchTok] at hk
    · simp [matchTok] at hk
    · simp [matchTok] at hk
    · simp [matchTok] at hk
    · simp [matchTok] at hk
    · simp [matchTok] at hk
    · simp [matchTok] at hk
    · simp [matchTok] at hk
    · simp [matchTok] at hk
    · simp [matchTok] at hk
    · simp [matchTok] at hk
    · simp [matchComment] at hk
    · simp [matchDecInt, isDecDigit, decTail] at hk
      exact Or.inr (by omega)
    · simp [matchRadixInt] at hk
    · simp [matchRadixInt, isOctDigit_digitCharOf e1 he1,
        radixTail_digits isOctDigit es (fun d hd => by have := hes d hd; omega)
          (fun d hd => isOctDigit_digitCharOf d (hes d hd))] at hk
      exact Or.inl ⟨rfl, by omega⟩
    · simp [matchRadixInt] at hk
    · simp [matchFloat, decTail, isDecDigit] at hk
    · simp [matchTok] at hk
    · simp [matchTok] at hk
    · simp [matchString] at hk
    · simp [matchCharLit, quoteChar] at hk
    · simp [matchByteStr] at hk
    · simp [matchByteLit] at hk
    · simp [matchIdent, isLetter] at hk
  · refine ⟨matchRadixInt 'O' 'o' isOctDigit, by simp [rules], ?_⟩
    simp [matchRadixInt, isOctDigit_digitCharOf e1 he1,
      radixTail_digits isOctDigit es (fun d hd => by have := hes d hd; omega)
        (fun d hd => isOctDigit_digitCharOf d (hes d hd))]

set_option maxHeartbeats 2000000 in
/-- On a rendered `0b`-prefixed digit string, the corresponding radix
rule is the maximal-munch winner, matching the entire string. -/
theorem pickBest_bin (e1 : Nat) (es : List Nat) (he1 : e1 < 2)
    (hes : ∀ d ∈ es, d < 2) :
    pickBest rules '0' ('b' :: digitCharOf e1 :: es.map digitCharOf) =
      some (.BinIntegerLiteral, 2 + es.length) := by
  apply pickBest_dominant
  · intro p hp k hk
    fin_cases hp
    · simp [matchWs, isWsChar] at hk
    · simp [matchTok] at hk
    · simp [matchTok] at hk
    · simp [matchTok] at hk
    · simp [matchTok] at hk
    · simp [matchTok] at hk
    · simp [matchTok] at hk
    · simp [matchTok] at hk
    · simp [matchTok] at hk
    · simp [matchTok] at hk
    · simp [matchTok] at hk
    · simp [matchTok] at hk
    · simp [matchTok] at hk
    · simp [matchTok] at hk
    · simp [matchTok] at hk
    · simp [matchTok] at hk
    · simp [matchTok] at hk
    · simp [matchTok] at hk
    · simp [matchTok] at hk
    · simp [matchTok] at hk
    · simp [matchTok] at hk
    · simp [matchTok] at hk
    · simp [matchTok] at hk
    · simp [matchTok] at hk
    · simp [matchTok] at hk
    · simp [matchTok] at hk
    · simp [matchTok] at hk
    · simp [matchTok] at hk
    · simp [matchTok] at hk
    · simp [matchTok] at hk
    · simp [matchTok] at hk
    · simp [matchTok] at hk
    · simp [matchTok] at hk
    · simp [matchTok] at hk
    · simp [matchTok] at hk
    · simp [matchTok] at hk
    · simp [matchTok] at hk
    · simp [matchTok] at hk
    · simp [matchTok] at hk
    · simp [matchTok] at hk
    · simp [matchTok] at hk
    · simp [matchTok] at hk
    · simp [matchTok] at hk
    · simp [matchTok] at hk
    · simp [matchTok] at hk
    · simp [matchTok] at hk
    · simp [matchTok] at hk
    · simp [matchTok] at hk
    · simp [matchTok] at hk
    · simp [matchTok] at hk
    · simp [matchTok] at hk
    · simp [matchTok] at hk
    · simp [matchTok] at hk
    · simp [matchTok] at hk
    · simp [matchTok] at hk
    · simp [matchTok] at hk
    · simp [matchTok] at hk
    · simp [matchTok] at hk
    · simp [matchTok] at hk
    · simp [matchTok] at hk
    · simp [matchTok] at hk
    · simp [matchTok] at hk
    · simp [matchComment] at hk
    · simp [matchDecInt, isDecDigit, decTail] at hk
      exact Or.inr (by omega)
    · simp [matchRadixInt] at hk
    · simp [matchRadixInt] at hk
    · simp [matchRadixInt, isBinDigit_digitCharOf e1 he1,
        radixTail_digits isBinDigit es (fun d hd => by have := hes d hd; omega)
          (fun d hd => isBinDigit_digitCharOf d (hes d hd))] at hk
      exact Or.inl ⟨rfl, by omega⟩
    · simp [matchFloat, decTail, isDecDigit] at hk
    · simp [matchTok] at hk
    · simp [matchTok] at hk
    · simp [matchString] at hk
    · simp [matchCharLit, quoteChar] at hk
    · simp [matchByteStr] at hk
    · simp [matchByteLit] at hk
    · simp [matchIdent, isLetter] at hk
  · refine ⟨matchRadixInt 'B' 'b' isBinDigit, by simp [rules], ?_⟩
    simp [matchRadixInt, isBinDigit_digitCharOf e1 he1,
      radixTail_digits isBinDigit es (fun d hd => by have := hes d hd; omega)
        (fun d hd => isBinDigit_digitCharOf d (hes d hd))]

/-- Lexing the rendered decimal literal text of `n` yields exactly one
token: `Integer n` decoded back, or an `InvalidInteger` error when `n`
overflows `u64`. -/
theorem lex_render_dec (n : Nat) :
    lex (String.mk (renderDec n)) =
      [(if n < 2 ^ 64 then .ok (.Literal (.Integer n)) else .error .InvalidInteger,
        ⟨0, (renderDec n).length⟩)] := by
  obtain ⟨hbw, hne⟩ := toDigitsBE_bounds 10 (by omega) n
  obtain ⟨e1, es, hD⟩ : ∃ e1 es, toDigitsBE 10 n = e1 :: es := by
    cases hT : toDigitsBE 10 n with
    | nil => exact absurd hT hne
    | cons a b => exact ⟨a, b, rfl⟩
  have he1 : e1 < 10 := hbw e1 (by rw [hD]; simp)
  have hes : ∀ d ∈ es, d < 10 := fun d hd => hbw d (by rw [hD]; simp [hd])
  have hlen : (renderDec n).length = es.length + 1 := by
    rw [renderDec, render, hD]
    simp
  show lexLoop (String.mk (renderDec n)).data.length (String.mk (renderDec n)).data 0
      = _
  have hdata : (String.mk (renderDec n)).data = renderDec n := rfl
  rw [hdata, hlen]
  rw [show renderDec n = digitCharOf e1 :: es.map digitCharOf by
    rw [renderDec, render, hD, List.map_cons]]
  simp only [lexLoop]
  rw [pickBest_dec e1 es he1 hes]
  dsimp only
  rw [if_neg (show ¬ (Scalar.IntegerLiteral = Scalar.Error) by decide)]
  rw [map_take_length, map_drop_length, lexLoop_nil]
  rw [tokenize, ← List.map_cons, parse_int,
    filter_underscores_map (e1 :: es) (fun d hd => by
      rcases List.mem_cons.mp hd with rfl | hd2
      · omega
      · have := hes d hd2
        omega),
    radixFromStr_render 10 (by omega) (e1 :: es) (by simp) (fun d hd => by
      rcases List.mem_cons.mp hd with rfl | hd2
      · exact he1
      · exact hes d hd2),
    ← hD, toDigitsBE_foldl 10 (by omega) n]
  split <;> simp [Except.map]

/-- Lexing the rendered `0x`-prefixed literal text of `n` yields exactly
one token: `Integer n` decoded back, or an `InvalidInteger` error when `n`
overflows `u64`. -/
theorem lex_render_hex (n : Nat) :
    lex (String.mk (renderHex n)) =
      [(if n < 2 ^ 64 then .ok (.Literal (.Integer n)) else .error .InvalidInteger,
        ⟨0, (renderHex n).length⟩)] := by
  obtain ⟨hbw, hne⟩ := toDigitsBE_bounds 16 (by omega) n
  obtain ⟨e1, es, hD⟩ : ∃ e1 es, toDigitsBE 16 n = e1 :: es := by
    cases hT : toDigitsBE 16 n with
    | nil => exact absurd hT hne
    | cons a b => exact ⟨a, b, rfl⟩
  have he1 : e1 < 16 := hbw e1 (by rw [hD]; simp)
  have hes : ∀ d ∈ es, d < 16 := fun d hd => hbw d (by rw [hD]; simp [hd])
  have hlen : (renderHex n).length = es.length + 3 := by
    rw [renderHex, render, hD]
    simp
  show lexLoop (String.mk (renderHex n)).data.length
      (String.mk (renderHex n)).data 0 = _
  have hdata : (String.mk (renderHex n)).data = renderHex n := rfl
  rw [hdata, hlen]
  rw [show renderHex n = '0' :: 'x' :: digitCharOf e1 :: es.map digitCharOf by
    rw [renderHex, render, hD, List.map_cons]]
  rw [show es.length + 3 = (es.length + 2) + 1 by omega]
  simp only [lexLoop]
  rw [pickBest_hex e1 es he1 hes]
  dsimp only
  rw [if_neg (show ¬ (Scalar.HexIntegerLiteral = Scalar.Error) by decide)]
  rw [show (2 : Nat) + es.length = Nat.succ (Nat.succ es.length) by omega]
  rw [List.take_succ_cons, List.take_succ_cons, map_take_length,
    List.drop_succ_cons, List.drop_succ_cons, map_drop_length, lexLoop_nil]
  rw [tokenize, parse_hex_int]
  rw [show (('0' :: 'x' :: digitCharOf e1 :: es.map digitCharOf).drop 2)
      = (e1 :: es).map digitCharOf by simp]
  rw [filter_underscores_map (e1 :: es) (fun d hd => by
      rcases List.mem_cons.mp hd with rfl | hd2
      · omega
      · have := hes d hd2
        omega),
    radixFromStr_render 16 (by omega) (e1 :: es) (by simp) (fun d hd => by
      rcases List.mem_cons.mp hd with rfl | hd2
      · exact he1
      · exact hes d hd2),
    ← hD, toDigitsBE_foldl 16 (by omega) n]
  split <;> simp [Except.map]

/-- Lexing the rendered `0o`-prefixed literal text of `n` yields exactly
one token: `Integer n` decoded back, or an `InvalidInteger` error when `n`
overflows `u64`. -/
theorem lex_render_oct (n : Nat) :
    lex (String.mk (renderOct n)) =
      [(if n < 2 ^ 64 then .ok (.Literal (.Integer n)) else .error .InvalidInteger,
        ⟨0, (renderOct n).length⟩)] := by
  obtain ⟨hbw, hne⟩ := toDigitsBE_bounds 8 (by omega) n
  obtain ⟨e1, es, hD⟩ : ∃ e1 es, toDigitsBE 8 n = e1 :: es := by
    cases hT : toDigitsBE 8 n with
    | nil => exact absurd hT hne
    | cons a b => exact ⟨a, b, rfl⟩
  have he1 : e1 < 8 := hbw e1 (by rw [hD]; simp)
  have hes : ∀ d ∈ es, d < 8 := fun d hd => hbw d (by rw [hD]; simp [hd])
  have hlen : (renderOct n).length = es.length + 3 := by
    rw [renderOct, render, hD]
    simp
  show lexLoop (String.mk (renderOct n)).data.length
      (String.mk (renderOct n)).data 0 = _
  have hdata : (String.mk (renderOct n)).data = renderOct n := rfl
  rw [hdata, hlen]
  rw [show renderOct n = '0' :: 'o' :: digitCharOf e1 :: es.map digitCharOf by
    rw [renderOct, render, hD, List.map_cons]]
  rw [show es.length + 3 = (es.length + 2) + 1 by omega]
  simp only [lexLoop]
  rw [pickBest_oct e1 es he1 hes]
  dsimp only
  rw [if_neg (show ¬ (Scalar.OctIntegerLiteral = Scalar.Error) by decide)]
  rw [show (2 : Nat) + es.length = Nat.succ (Nat.succ es.length) by omega]
  rw [List.take_succ_cons, List.take_succ_cons, map_take_length,
    List.drop_succ_cons, List.drop_succ_cons, map_drop_length, lexLoop_nil]
  rw [tokenize, parse_oct_int]
  rw [show (('0' :: 'o' :: digitCharOf e1 :: es.map digitCharOf).drop 2)
      = (e1 :: es).map digitCharOf by simp]
  rw [filter_underscores_map (e1 :: es) (fun d hd => by
      rcases List.mem_cons.mp hd with rfl | hd2
      · omega
      · have := hes d hd2
        omega),
    radixFromStr_render 8 (by omega) (e1 :: es) (by simp) (fun d hd => by
      rcases List.mem_cons.mp hd with rfl | hd2
      · exact he1
      · exact hes d hd2),
    ← hD, toDigitsBE_foldl 8 (by omega) n]
  split <;> simp [Except.map]

/-- Lexing the rendered `0b`-prefixed literal text of `n` yields exactly
one token: `Integer n` decoded back, or an `InvalidInteger` error when `n`
overflows `u64`. -/
theorem lex_render_bin (n : Nat) :
    lex (String.mk (renderBin n)) =
      [(if n < 2 ^ 64 then .ok (.Literal (.Integer n)) else .error .InvalidInteger,
        ⟨0, (renderBin n).length⟩)] := by
  obtain ⟨hbw, hne⟩ := toDigitsBE_bounds 2 (by omega) n
  obtain ⟨e1, es, hD⟩ : ∃ e1 es, toDigitsBE 2 n = e1 :: es := by
    cases hT : toDigitsBE 2 n with
    | nil => exact absurd hT hne
    | cons a b => exact ⟨a, b, rfl⟩
  have he1 : e1 < 2 := hbw e1 (by rw [hD]; simp)
  have hes : ∀ d ∈ es, d < 2 := fun d hd => hbw d (by rw [hD]; simp [hd])
  have hlen : (renderBin n).length = es.length + 3 := by
    rw [renderBin, render, hD]
    simp
  show lexLoop (String.mk (renderBin n)).data.length
      (String.mk (renderBin n)).data 0 = _
  have hdata : (String.mk (renderBin n)).data = renderBin n := rfl
  rw [hdata, hlen]
  rw [show renderBin n = '0' :: 'b' :: digitCharOf e1 :: es.map digitCharOf by
    rw [renderBin, render, hD, List.map_cons]]
  rw [show es.length + 3 = (es.length + 2) + 1 by omega]
  simp only [lexLoop]
  rw [pickBest_bin e1 es he1 hes]
  dsimp only
  rw [if_neg (show ¬ (Scalar.BinIntegerLiteral = Scalar.Error) by decide)]
  rw [show (2 : Nat) + es.length = Nat.succ (Nat.succ es.length) by omega]
  rw [List.take_succ_cons, List.take_succ_cons, map_take_length,
    List.drop_succ_cons, List.drop_succ_cons, map_drop_length, lexLoop_nil]
  rw [tokenize, parse_bin_int]
  rw [show (('0' :: 'b' :: digitCharOf e1 :: es.map digitCharOf).drop 2)
      = (e1 :: es).map digitCharOf by simp]
  rw [filter_underscores_map (e1 :: es) (fun d hd => by
      rcases List.mem_cons.mp hd with rfl | hd2
      · omega
      · have := hes d hd2
        omega),
    radixFromStr_render 2 (by omega) (e1 :: es) (by simp) (fun d hd => by
      rcases List.mem_cons.mp hd with rfl | hd2
      · exact he1
      · exact hes d hd2),
    ← hD, toDigitsBE_foldl 2 (by omega) n]
  split <;> simp [Except.map]

/-! ### The `InvalidFloat` branch is unreachable -/

instance : DecidableEq (Except LexError TokenType) := fun a b =>
  match a, b with
  | .ok x, .ok y =>
    if h : x = y then .isTrue (by rw [h]) else .isFalse (by simp [h])
  | .error x, .error y =>
    if h : x = y then .isTrue (by rw [h]) else .isFalse (by simp [h])
  | .ok _, .error _ => .isFalse (by simp)
  | .error _, .ok _ => .isFalse (by simp)

/-- Whether a lexer trace contains an `InvalidFloat` error. -/
def hasInvalidFloat (ts : List (Except LexError TokenType × Span)) : Bool :=
  ts.any (fun t => t.1 == Except.error LexError.InvalidFloat)

/-- `u64` parsing only fails with `InvalidInteger`. -/
theorem radixFromStr_err (radix : Nat) (s : List Char) :
    radixFromStr radix s ≠ .error .InvalidFloat := by
  rw [radixFromStr.eq_def]
  dsimp only
  split
  · split <;> simp
  · simp

/-- `unescape` only fails with `InvalidEscape`. -/
theorem unescape_err (uni : Bool) (cs : List Char) (e : LexError)
    (h : unescape uni cs = .error e) : ∃ s, e = .InvalidEscape s := by
  unfold unescape at h
  repeat' split at h
  all_goals
    first
    | (simp at h
       done)
    | (simp only [Except.error.injEq] at h
       exact ⟨_, h.symm⟩)

/-- The string-decoding loop only fails with `InvalidEscape`. -/
theorem strLoop_err (uni : Bool) :
    ∀ fuel cs e, strLoop uni fuel cs = .error e → ∃ s, e = .InvalidEscape s := by
  intro fuel
  induction fuel with
  | zero => intro cs e h; simp [strLoop] at h
  | succ f ih =>
    intro cs e h
    match cs with
    | [] => simp [strLoop] at h
    | c :: rest =>
      rw [strLoop] at h
      split at h
      · split at h
        · rename_i hu
          simp only [Except.error.injEq] at h
          obtain rfl := h
          exact unescape_err uni rest _ hu
        · split at h
          · rename_i hs
            simp only [Except.error.injEq] at h
            obtain rfl := h
            exact ih _ _ hs
          · simp at h
      · split at h
        · rename_i hs
          simp only [Except.error.injEq] at h
          obtain rfl := h
          exact ih _ _ hs
        · simp at h

/-- The byte-decoding loop only fails with `InvalidEscape`. -/
theorem byteLoop_err :
    ∀ fuel cs e, byteLoop fuel cs = .error e → ∃ s, e = .InvalidEscape s := by
  intro fuel
  induction fuel with
  | zero => intro cs e h; simp [byteLoop] at h
  | succ f ih =>
    intro cs e h
    match cs with
    | [] => simp [byteLoop] at h
    | c :: rest =>
      rw [byteLoop] at h
      split at h
      · split at h
        · rename_i hu
          simp only [Except.error.injEq] at h
          obtain rfl := h
          exact unescape_err false rest _ hu
        · split at h
          · rename_i hs
            simp only [Except.error.injEq] at h
            obtain rfl := h
            exact ih _ _ hs
          · simp at h
      · split at h
        · rename_i hs
          simp only [Except.error.injEq] at h
          obtain rfl := h
          exact ih _ _ hs
        · simp at h

/-- The only rule of the table tagged `FloatLiteral` is the float
matcher. -/
theorem rules_float (m : Char → List Char → Option Nat)
    (h : (Scalar.FloatLiteral, m) ∈ rules) : m = matchFloat := by
  simp [rules, Prod.ext_iff] at h
  exact h

/-- Numeric bounds of the `[0-9]` class. -/
theorem isDecDigit_bounds (c : Char) (h : isDecDigit c = true) :
    48 ≤ c.toNat ∧ c.toNat ≤ 57 := by
  simp [isDecDigit] at h
  exact h

/-- A decimal digit differs from any character outside `48`–`57`. -/
theorem decDigit_ne (c : Char) (h : isDecDigit c = true) (t : Char)
    (ht : t.toNat < 48 ∨ 57 < t.toNat) : c ≠ t := by
  intro hEq
  obtain ⟨h1, h2⟩ := isDecDigit_bounds c h
  rw [hEq] at h1 h2
  omega

/-- `decTail` on a list not starting with an underscore. -/
theorem decTail_cons_ne (c : Char) (cs : List Char) (hne : c ≠ '_') :
    decTail (c :: cs) = if isDecDigit c then 1 + decTail cs else 0 := by
  rcases cs with - | ⟨c2, rest⟩
  · rw [decTail.eq_def]
    split
    · rename_i heq
      simp at heq
    · rename_i c2 rest heq
      simp only [List.cons.injEq] at heq
      obtain ⟨rfl, rfl⟩ := heq
      rfl
    · rename_i heq
      simp at heq
  · rw [decTail.eq_def]
    split
    · rename_i heq
      simp only [List.cons.injEq] at heq
      exact absurd heq.1 hne
    · rename_i heq
      simp only [List.cons.injEq] at heq
      obtain ⟨rfl, rfl⟩ := heq
      rfl
    · rename_i heq
      simp at heq

/-- Every character inside the run consumed by `decTail` is a digit or an
underscore separator. -/
theorem decTail_region (cs : List Char) :
    ∀ x ∈ cs.take (decTail cs), isDecDigit x = true ∨ x = '_' := by
  match cs with
  | [] => simp
  | c :: rest =>
    by_cases hc : c = '_'
    · subst hc
      match rest with
      | [] =>
        intro x hx
        rw [show decTail ['_'] = 0 from by decide] at hx
        simp at hx
      | c2 :: rest2 =>
        rw [decTail]
        by_cases h2 : isDecDigit c2
        · rw [if_pos h2, show (2 : Nat) + decTail rest2 = (decTail rest2 + 1) + 1 by omega,
            List.take_succ_cons, List.take_succ_cons]
          intro x hx
          simp only [List.mem_cons] at hx
          rcases hx with rfl | rfl | hx
          · exact Or.inr rfl
          · exact Or.inl h2
          · exact decTail_region rest2 x hx
        · rw [if_neg h2]
          intro x hx
          simp at hx
    · rw [decTail_cons_ne c rest hc]
      by_cases hd : isDecDigit c
      · rw [if_pos hd, show (1 : Nat) + decTail rest = decTail rest + 1 by omega,
          List.take_succ_cons]
        intro x hx
        simp only [List.mem_cons] at hx
        rcases hx with rfl | hx
        · exact Or.inl hd
        · exact decTail_region rest x hx
      · rw [if_neg hd]
        intro x hx
        simp at hx
termination_by cs.length

/-- `takeWhile`/`dropWhile` split around the first failing element. -/
theorem takeWhile_middle (p : Char → Bool) (A : List Char) (x : Char)
    (B : List Char) (hA : ∀ a ∈ A, p a = true) (hx : p x = false) :
    (A ++ x :: B).takeWhile p = A ∧ (A ++ x :: B).dropWhile p = x :: B := by
  induction A with
  | nil => simp [List.takeWhile_cons, List.dropWhile_cons, hx]
  | cons a A ih =>
    have ha := hA a (by simp)
    obtain ⟨ih1, ih2⟩ := ih (fun y hy => hA y (by simp [hy]))
    simp [List.takeWhile_cons, List.dropWhile_cons, ha, ih1, ih2]

/-- `takeWhile`/`dropWhile` on an all-satisfying list. -/
theorem takeWhile_all (p : Char → Bool) (A : List Char)
    (hA : ∀ a ∈ A, p a = true) :
    A.takeWhile p = A ∧ A.dropWhile p = [] := by
  induction A with
  | nil => simp
  | cons a A ih =>
    have ha := hA a (by simp)
    obtain ⟨ih1, ih2⟩ := ih (fun y hy => hA y (by simp [hy]))
    simp [List.takeWhile_cons, List.dropWhile_cons, ha, ih1, ih2]

/-- Underscore filtering keeps a leading non-underscore character. -/
theorem filter_underscores_cons (c : Char) (X : List Char) (h : c ≠ '_') :
    filter_underscores (c :: X) = c :: filter_underscores X := by
  simp [filter_underscores, h]

/-- Underscore filtering of a digit/underscore region leaves only
digits. -/
theorem filter_region (L : List Char)
    (hL : ∀ x ∈ L, isDecDigit x = true ∨ x = '_') :
    ∀ x ∈ filter_underscores L, isDecDigit x = true := by
  intro x hx
  rw [filter_underscores, List.mem_filter] at hx
  obtain ⟨hmem, hpred⟩ := hx
  rcases hL x hmem with h | h
  · exact h
  · simp [h] at hpred

/-- Digits stay digits under ASCII lowercasing. -/
theorem asciiLower_digit (c : Char) (hc : isDecDigit c = true) :
    asciiLower c = c := by
  obtain ⟨h1, h2⟩ := isDecDigit_bounds c hc
  rw [asciiLower, if_neg (by omega)]

/-- A digit-headed string is never one of the float keywords. -/
theorem lowerIs_false (c : Char) (X : List Char) (hc : isDecDigit c = true)
    (t : Char) (ts : List Char) (ht : t.toNat < 48 ∨ 57 < t.toNat) :
    lowerIs (c :: X) (t :: ts) = false := by
  simp [lowerIs, asciiLower_digit c hc]
  intro hEq
  exact absurd hEq (decDigit_ne c hc t ht)

/-- Underscore filtering distributes over append. -/
theorem filter_underscores_append (X Y : List Char) :
    filter_underscores (X ++ Y) = filter_underscores X ++ filter_underscores Y := by
  simp [filter_underscores, List.filter_append]

/-- A filtered digit/underscore mantissa with a fraction part satisfies the
`f64::from_str` grammar. -/
theorem rustFloatValid_noexp (c d2 : Char) (A B : List Char)
    (hc : isDecDigit c = true) (hd2 : isDecDigit d2 = true)
    (hA : ∀ x ∈ A, isDecDigit x = true ∨ x = '_')
    (hB : ∀ x ∈ B, isDecDigit x = true ∨ x = '_') :
    rustFloatValid (filter_underscores (c :: (A ++ '.' :: d2 :: B))) = true := by
  have hcu : c ≠ '_' := decDigit_ne c hc '_' (by decide)
  have hd2u : d2 ≠ '_' := decDigit_ne d2 hd2 '_' (by decide)
  rw [filter_underscores_cons c _ hcu, filter_underscores_append,
    filter_underscores_cons '.' _ (by decide), filter_underscores_cons d2 _ hd2u]
  have hfA := filter_region A hA
  have hfB := filter_region B hB
  have hall : ∀ a ∈ c :: filter_underscores A, isDecDigit a = true := by
    intro a ha
    rcases List.mem_cons.mp ha with rfl | ha
    · exact hc
    · exact hfA a ha
  have hallB : ∀ a ∈ d2 :: filter_underscores B, isDecDigit a = true := by
    intro a ha
    rcases List.mem_cons.mp ha with rfl | ha
    · exact hd2
    · exact hfB a ha
  have hdw : (c :: (filter_underscores A ++ '.' :: d2 :: filter_underscores B)).dropWhile
      isDecDigit = '.' :: d2 :: filter_underscores B :=
    (takeWhile_middle isDecDigit (c :: filter_underscores A) '.'
      (d2 :: filter_underscores B) hall (by decide)).2
  obtain ⟨htwB, hdwB⟩ := takeWhile_all isDecDigit (d2 :: filter_underscores B) hallB
  have h1 : ¬(c = '+' ∨ c = '-') := by
    rintro (rfl | rfl)
    · exact absurd hc (by decide)
    · exact absurd hc (by decide)
  have hi1 : lowerIs (c :: (filter_underscores A ++ '.' :: d2 :: filter_underscores B))
      ['i', 'n', 'f'] = false :=
    lowerIs_false c _ hc 'i' _ (by decide)
  have hi2 : lowerIs (c :: (filter_underscores A ++ '.' :: d2 :: filter_underscores B))
      ['i', 'n', 'f', 'i', 'n', 'i', 't', 'y'] = false :=
    lowerIs_false c _ hc 'i' _ (by decide)
  have hi3 : lowerIs (c :: (filter_underscores A ++ '.' :: d2 :: filter_underscores B))
      ['n', 'a', 'n'] = false :=
    lowerIs_false c _ hc 'n' _ (by decide)
  simp only [rustFloatValid]
  simp only [if_neg h1]
  simp only [hi1, hi2, hi3]
  rw [if_neg (by simp)]
  simp only [hdw]
  simp only [htwB, hdwB]
  simp [floatExpValid]

/-- A filtered digit/underscore mantissa with fraction and signed exponent
parts satisfies the `f64::from_str` grammar. -/
theorem rustFloatValid_exp (c d2 e s d3 : Char) (A B C : List Char)
    (hc : isDecDigit c = true) (hd2 : isDecDigit d2 = true)
    (he : e = 'e' ∨ e = 'E') (hs : s = '+' ∨ s = '-')
    (hd3 : isDecDigit d3 = true)
    (hA : ∀ x ∈ A, isDecDigit x = true ∨ x = '_')
    (hB : ∀ x ∈ B, isDecDigit x = true ∨ x = '_')
    (hC : ∀ x ∈ C, isDecDigit x = true ∨ x = '_') :
    rustFloatValid (filter_underscores
      (c :: (A ++ '.' :: d2 :: (B ++ e :: s :: d3 :: C)))) = true := by
  have hcu : c ≠ '_' := decDigit_ne c hc '_' (by decide)
  have hd2u : d2 ≠ '_' := decDigit_ne d2 hd2 '_' (by decide)
  have hd3u : d3 ≠ '_' := decDigit_ne d3 hd3 '_' (by decide)
  have heu : e ≠ '_' := by rcases he with rfl | rfl <;> decide
  have hsu : s ≠ '_' := by rcases hs with rfl | rfl <;> decide
  have hed : isDecDigit e = false := by rcases he with rfl | rfl <;> decide
  rw [filter_underscores_cons c _ hcu, filter_underscores_append,
    filter_underscores_cons '.' _ (by decide), filter_underscores_cons d2 _ hd2u,
    filter_underscores_append, filter_underscores_cons e _ heu,
    filter_underscores_cons s _ hsu, filter_underscores_cons d3 _ hd3u]
  have hfA := filter_region A hA
  have hfB := filter_region B hB
  have hfC := filter_region C hC
  have hall : ∀ a ∈ c :: filter_underscores A, isDecDigit a = true := by
    intro a ha
    rcases List.mem_cons.mp ha with rfl | ha
    · exact hc
    · exact hfA a ha
  have hallB : ∀ a ∈ d2 :: filter_underscores B, isDecDigit a = true := by
    intro a ha
    rcases List.mem_cons.mp ha with rfl | ha
    · exact hd2
    · exact hfB a ha
  have hdw : (c :: (filter_underscores A ++ '.' :: d2 ::
      (filter_underscores B ++ e :: s :: d3 :: filter_underscores C))).dropWhile
      isDecDigit = '.' :: d2 ::
      (filter_underscores B ++ e :: s :: d3 :: filter_underscores C) :=
    (takeWhile_middle isDecDigit (c :: filter_underscores A) '.'
      (d2 :: (filter_underscores B ++ e :: s :: d3 :: filter_underscores C))
      hall (by decide)).2
  have htwB : (d2 :: (filter_underscores B ++ e :: s :: d3 ::
      filter_underscores C)).takeWhile isDecDigit = d2 :: filter_underscores B :=
    (takeWhile_middle isDecDigit (d2 :: filter_underscores B) e
      (s :: d3 :: filter_underscores C) hallB hed).1
  have hdwB : (d2 :: (filter_underscores B ++ e :: s :: d3 ::
      filter_underscores C)).dropWhile isDecDigit
      = e :: s :: d3 :: filter_underscores C :=
    (takeWhile_middle isDecDigit (d2 :: filter_underscores B) e
      (s :: d3 :: filter_underscores C) hallB hed).2
  have h1 : ¬(c = '+' ∨ c = '-') := by
    rintro (rfl | rfl)
    · exact absurd hc (by decide)
    · exact absurd hc (by decide)
  have hi1 : lowerIs (c :: (filter_underscores A ++ '.' :: d2 ::
      (filter_underscores B ++ e :: s :: d3 :: filter_underscores C)))
      ['i', 'n', 'f'] = false :=
    lowerIs_false c _ hc 'i' _ (by decide)
  have hi2 : lowerIs (c :: (filter_underscores A ++ '.' :: d2 ::
      (filter_underscores B ++ e :: s :: d3 :: filter_underscores C)))
      ['i', 'n', 'f', 'i', 'n', 'i', 't', 'y'] = false :=
    lowerIs_false c _ hc 'i' _ (by decide)
  have hi3 : lowerIs (c :: (filter_underscores A ++ '.' :: d2 ::
      (filter_underscores B ++ e :: s :: d3 :: filter_underscores C)))
      ['n', 'a', 'n'] = false :=
    lowerIs_false c _ hc 'n' _ (by decide)
  have hexp : floatExpValid (e :: s :: d3 :: filter_underscores C) = true := by
    simp only [floatExpValid]
    simp only [if_pos he, if_pos hs]
    simp only [ne_eq, List.all_eq_true, decide_eq_true_eq]
    refine ⟨by simp, ?_⟩
    intro x hx
    rcases List.mem_cons.mp hx with rfl | hx
    · exact hd3
    · exact hfC x hx
  simp only [rustFloatValid]
  simp only [if_neg h1]
  simp only [hi1, hi2, hi3]
  rw [if_neg (by simp)]
  simp only [hdw]
  simp only [htwB, hdwB, hexp]
  simp

/-- The text matched by the float rule always satisfies the
`f64::from_str` grammar after underscore filtering. -/
theorem matchFloat_valid (c : Char) (cs : List Char) (n : Nat)
    (h : matchFloat c cs = some n) :
    rustFloatValid (filter_underscores (c :: cs.take n)) = true := by
  simp only [matchFloat] at h
  split at h
  · rename_i hc
    split at h
    · rename_i d2 rest2 heq
      split at h
      · rename_i hd2
        split at h
        · rename_i e s d3 rest3 heq2
          split at h
          · rename_i hcond
            obtain ⟨he, hs, hd3⟩ := hcond
            simp only [Option.some.injEq] at h
            subst h
            have hmid : rest2.take (decTail rest2 + (3 + decTail rest3))
                = rest2.take (decTail rest2) ++ e :: s :: d3 ::
                  rest3.take (decTail rest3) := by
              rw [List.take_add, heq2]
              congr 1
              rw [show (3 : Nat) + decTail rest3 = decTail rest3 + 1 + 1 + 1
                  from by omega,
                List.take_succ_cons, List.take_succ_cons, List.take_succ_cons]
            have ht : cs.take (decTail cs + 2 + decTail rest2 + 3 + decTail rest3)
                = cs.take (decTail cs) ++ '.' :: d2 ::
                  (rest2.take (decTail rest2) ++ e :: s :: d3 ::
                    rest3.take (decTail rest3)) := by
              rw [show decTail cs + 2 + decTail rest2 + 3 + decTail rest3
                  = decTail cs + (2 + (decTail rest2 + (3 + decTail rest3)))
                  from by omega,
                List.take_add, heq]
              congr 1
              rw [show (2 : Nat) + (decTail rest2 + (3 + decTail rest3))
                  = decTail rest2 + (3 + decTail rest3) + 1 + 1 from by omega,
                List.take_succ_cons, List.take_succ_cons, hmid]
            rw [ht]
            exact rustFloatValid_exp c d2 e s d3 (cs.take (decTail cs))
              (rest2.take (decTail rest2)) (rest3.take (decTail rest3))
              hc hd2 he hs hd3 (decTail_region cs) (decTail_region rest2)
              (decTail_region rest3)
          · simp only [Option.some.injEq] at h
            subst h
            have ht : cs.take (decTail cs + 2 + decTail rest2)
                = cs.take (decTail cs) ++ '.' :: d2 ::
                  rest2.take (decTail rest2) := by
              rw [show decTail cs + 2 + decTail rest2
                  = decTail cs + (2 + decTail rest2) from by omega,
                List.take_add, heq]
              congr 1
              rw [show (2 : Nat) + decTail rest2 = decTail rest2 + 1 + 1
                  from by omega,
                List.take_succ_cons, List.take_succ_cons]
            rw [ht]
            exact rustFloatValid_noexp c d2 (cs.take (decTail cs))
              (rest2.take (decTail rest2)) hc hd2 (decTail_region cs)
              (decTail_region rest2)
        · rename_i hnp
          simp only [Option.some.injEq] at h
          subst h
          have ht : cs.take (decTail cs + 2 + decTail rest2)
              = cs.take (decTail cs) ++ '.' :: d2 ::
                rest2.take (decTail rest2) := by
            rw [show decTail cs + 2 + decTail rest2
                = decTail cs + (2 + decTail rest2) from by omega,
              List.take_add, heq]
            congr 1
            rw [show (2 : Nat) + decTail rest2 = decTail rest2 + 1 + 1
                from by omega,
              List.take_succ_cons, List.take_succ_cons]
          rw [ht]
          exact rustFloatValid_noexp c d2 (cs.take (decTail cs))
            (rest2.take (decTail rest2)) hc hd2 (decTail_region cs)
            (decTail_region rest2)
      · simp at h
    · simp at h
  · simp at h

/-- An `Except.map` is an error exactly when its argument is. -/
theorem except_map_error {α β : Type} (f : α → β) :
    ∀ (x : Except LexError α) (e : LexError), x.map f = .error e ↔ x = .error e := by
  intro x e
  cases x <;> simp [Except.map]

/-- `tokenize` can only produce `InvalidFloat` from the float rule, and
only when the filtered slice fails the `f64::from_str` grammar. -/
theorem tokenize_float (sc : Scalar) (slice : List Char)
    (h : tokenize sc slice = .error .InvalidFloat) :
    sc = .FloatLiteral ∧ rustFloatValid (filter_underscores slice) = false := by
  cases sc
  case IntegerLiteral =>
    simp only [tokenize] at h
    rw [except_map_error] at h
    exact absurd h (radixFromStr_err 10 _)
  case HexIntegerLiteral =>
    simp only [tokenize] at h
    rw [except_map_error] at h
    exact absurd h (radixFromStr_err 16 _)
  case OctIntegerLiteral =>
    simp only [tokenize] at h
    rw [except_map_error] at h
    exact absurd h (radixFromStr_err 8 _)
  case BinIntegerLiteral =>
    simp only [tokenize] at h
    rw [except_map_error] at h
    exact absurd h (radixFromStr_err 2 _)
  case FloatLiteral =>
    refine ⟨rfl, ?_⟩
    simp only [tokenize] at h
    rw [except_map_error] at h
    simp only [parse_float] at h
    cases hb : rustFloatValid (filter_underscores slice) with
    | false => rfl
    | true =>
      rw [if_pos hb] at h
      simp at h
  case StringLiteral =>
    simp only [tokenize] at h
    rw [except_map_error] at h
    rw [parse_str, except_map_error] at h
    obtain ⟨t, ht⟩ := strLoop_err true _ _ _ h
    simp at ht
  case CharLiteral =>
    simp only [tokenize] at h
    rw [except_map_error] at h
    unfold parse_char at h
    split at h
    · rw [except_map_error] at h
      obtain ⟨t, ht⟩ := unescape_err true _ _ h
      simp at ht
    · simp at h
    · simp at h
  case ByteStringLiteral =>
    simp only [tokenize] at h
    rw [except_map_error, parse_byte_str] at h
    obtain ⟨t, ht⟩ := byteLoop_err _ _ _ h
    simp at ht
  case ByteLiteral =>
    simp only [tokenize] at h
    rw [except_map_error] at h
    unfold parse_byte at h
    split at h
    · rw [except_map_error] at h
      obtain ⟨t, ht⟩ := unescape_err false _ _ h
      simp at ht
    · simp at h
    · simp at h
  all_goals simp [tokenize] at h

/-- No invocation of the lexing loop ever emits an `InvalidFloat`
error. -/
theorem lexLoop_no_float :
    ∀ fuel cs p, hasInvalidFloat (lexLoop fuel cs p) = false := by
  intro fuel
  induction fuel with
  | zero => intro cs p; rfl
  | succ f ih =>
    intro cs p
    match cs with
    | [] => rfl
    | c :: rest =>
      rw [lexLoop]
      split
      · rename_i sc extra heq
        split
        · exact ih _ _
        · rw [hasInvalidFloat]
          simp only [List.any_cons, Bool.or_eq_false_iff]
          constructor
          · rw [beq_eq_false_iff_ne]
            intro hEq
            obtain ⟨hsc, hfv⟩ := tokenize_float _ _ hEq
            subst hsc
            obtain ⟨m, hmem, hm⟩ := pickBest_mem rules c rest .FloatLiteral extra heq
            rw [rules_float m hmem] at hm
            have hv := matchFloat_valid c rest extra hm
            rw [hv] at hfv
            simp at hfv
          · exact ih _ _
      · rw [hasInvalidFloat]
        simp only [List.any_cons, Bool.or_eq_false_iff]
        exact ⟨by decide, ih _ _⟩

/-! ### A fuel-indexed mirror of the parser

The parser above is defined by well-founded recursion, which the kernel
does not reduce; the following structurally recursive mirror agrees with
it whenever the fuel covers the remaining tokens, so concrete runs can
be evaluated by `decide`/`rfl`. -/

/-- Fueled `unary`. -/
def unaryF (toks : List Token) : Nat → Nat → List (AstError × Span) → ParseState
  | 0, c, errors => primary toks c errors
  | fuel + 1, c, errors =>
    match peekTok toks c with
    | some t =>
      match t.as_unary with
      | some op =>
        let s := unaryF toks fuel (c + 1) errors
        (⟨.Unary (.mk op s.1), ⟨op.sp.start, s.1.span.stop⟩⟩, s.2.1, s.2.2)
      | none => primary toks c errors
    | none => primary toks c errors

/-- Fueled `multiplicationLoop`. -/
def multiplicationLoopF (toks : List Token) :
    Nat → Expr → Nat → List (AstError × Span) → ParseState
  | 0, expr, c, errors => (expr, c, errors)
  | fuel + 1, expr, c, errors =>
    match (peekTok toks c).map Token.as_multiplication with
    | some (some op) =>
      let s := unaryF toks fuel (c + 1) errors
      multiplicationLoopF toks fuel
        ⟨.Binary (.mk expr op s.1), ⟨expr.span.start, s.1.span.stop⟩⟩ s.2.1 s.2.2
    | _ => (expr, c, errors)

/-- Fueled `multiplication`. -/
def multiplicationF (toks : List Token) (fuel c : Nat)
    (errors : List (AstError × Span)) : ParseState :=
  let s := unaryF toks fuel c errors
  multiplicationLoopF toks fuel s.1 s.2.1 s.2.2

/-- Fueled `additionLoop`. -/
def additionLoopF (toks : List Token) :
    Nat → Expr → Nat → List (AstError × Span) → ParseState
  | 0, expr, c, errors => (expr, c, errors)
  | fuel + 1, expr, c, errors =>
    match (peekTok toks c).map Token.as_addition with
    | some (some op) =>
      let s := multiplicationF toks fuel (c + 1) errors
      additionLoopF toks fuel
        ⟨.Binary (.mk expr op s.1), ⟨expr.span.start, s.1.span.stop⟩⟩ s.2.1 s.2.2
    | _ => (expr, c, errors)

/-- Fueled `addition`. -/
def additionF (toks : List Token) (fuel c : Nat)
    (errors : List (AstError × Span)) : ParseState :=
  let s := multiplicationF toks fuel c errors
  additionLoopF toks fuel s.1 s.2.1 s.2.2

/-- Fueled `comparisonLoop`. -/
def comparisonLoopF (toks : List Token) :
    Nat → Expr → Nat → List (AstError × Span) → ParseState
  | 0, expr, c, errors => (expr, c, errors)
  | fuel + 1, expr, c, errors =>
    match (peekTok toks c).map Token.as_comparison with
    | some (some op) =>
      let s := additionF toks fuel (c + 1) errors
      comparisonLoopF toks fuel
        ⟨.Binary (.mk expr op s.1), ⟨expr.span.start, s.1.span.stop⟩⟩ s.2.1 s.2.2
    | _ => (expr, c, errors)

/-- Fueled `comparison`. -/
def comparisonF (toks : List Token) (fuel c : Nat)
    (errors : List (AstError × Span)) : ParseState :=
  let s := additionF toks fuel c errors
  comparisonLoopF toks fuel s.1 s.2.1 s.2.2

/-- Fueled `equalityLoop`. -/
def equalityLoopF (toks : List Token) :
    Nat → Expr → Nat → List (AstError × Span) → ParseState
  | 0, expr, c, errors => (expr, c, errors)
  | fuel + 1, expr, c, errors =>
    match (peekTok toks c).map Token.as_equality with
    | some (some op) =>
      let s := comparisonF toks fuel (c + 1) errors
      equalityLoopF toks fuel
        ⟨.Binary (.mk expr op s.1), ⟨expr.span.start, s.1.span.stop⟩⟩ s.2.1 s.2.2
    | _ => (expr, c, errors)

/-- Fueled `equality`. -/
def equalityF (toks : List Token) (fuel c : Nat)
    (errors : List (AstError × Span)) : ParseState :=
  let s := comparisonF toks fuel c errors
  equalityLoopF toks fuel s.1 s.2.1 s.2.2

/-- Fueled `parse`: one unit of fuel more than the token count suffices. -/
def parseF (toks : List Token) : Expr × List (AstError × Span) :=
  let s := equalityF toks (toks.length + 1) 0 []
  (s.1, s.2.2)

/-- With enough fuel the fueled `unary` is `unary`. -/
theorem unaryF_eq (toks : List Token) :
    ∀ fuel c errors, toks.length ≤ fuel + c →
      unaryF toks fuel c errors = unary toks c errors := by
  intro fuel
  induction fuel with
  | zero =>
    intro c errors h
    have hp : peekTok toks c = none := by
      rw [peekTok]
      exact List.getElem?_eq_none (by omega)
    rw [unary_end toks c errors hp]
    rfl
  | succ fuel ih =>
    intro c errors h
    cases hp : peekTok toks c with
    | none =>
      simp only [unaryF, hp]
      rw [unary_end toks c errors hp]
    | some t =>
      cases ho : t.as_unary with
      | none =>
        simp only [unaryF, hp, ho]
        rw [unary_noop toks c errors t hp ho]
      | some op =>
        simp only [unaryF, hp, ho]
        rw [unary_step toks c errors t op hp ho,
          ih (c + 1) errors (by omega)]

/-- With enough fuel the fueled `multiplicationLoop` is
`multiplicationLoop`. -/
theorem multiplicationLoopF_eq (toks : List Token) :
    ∀ fuel expr c errors, toks.length < fuel + c →
      multiplicationLoopF toks fuel expr c errors =
        multiplicationLoop toks expr c errors := by
  intro fuel
  induction fuel with
  | zero =>
    intro expr c errors h
    have hp : peekTok toks c = none := by
      rw [peekTok]
      exact List.getElem?_eq_none (by omega)
    rw [multiplicationLoop_end toks expr c errors hp]
    rfl
  | succ fuel ih =>
    intro expr c errors h
    cases hp : peekTok toks c with
    | none =>
      simp only [multiplicationLoopF, hp, Option.map]
      rw [multiplicationLoop_end toks expr c errors hp]
    | some t =>
      have hc : c < toks.length := by
        by_contra hcc
        rw [peekTok, List.getElem?_eq_none (by omega)] at hp
        exact absurd hp (by simp)
      cases ho : t.as_multiplication with
      | none =>
        simp only [multiplicationLoopF, hp, Option.map, ho]
        rw [multiplicationLoop_noop toks expr c errors t hp ho]
      | some op =>
        simp only [multiplicationLoopF, hp, Option.map, ho]
        rw [multiplicationLoop_step toks expr c errors t op hp ho,
          unaryF_eq toks fuel (c + 1) errors (by omega)]
        have hu := unary_cursor toks (c + 1) errors
        exact ih _ _ _ (by omega)

/-- With enough fuel the fueled `multiplication` is `multiplication`. -/
theorem multiplicationF_eq (toks : List Token) (fuel c : Nat)
    (errors : List (AstError × Span)) (h : toks.length ≤ fuel + c) :
    multiplicationF toks fuel c errors = multiplication toks c errors := by
  unfold multiplicationF multiplication
  rw [unaryF_eq toks fuel c errors h]
  have hu := unary_cursor toks c errors
  exact multiplicationLoopF_eq toks fuel _ _ _ (by omega)

/-- With enough fuel the fueled `additionLoop` is `additionLoop`. -/
theorem additionLoopF_eq (toks : List Token) :
    ∀ fuel expr c errors, toks.length < fuel + c →
      additionLoopF toks fuel expr c errors = additionLoop toks expr c errors := by
  intro fuel
  induction fuel with
  | zero =>
    intro expr c errors h
    have hp : peekTok toks c = none := by
      rw [peekTok]
      exact List.getElem?_eq_none (by omega)
    rw [additionLoop_end toks expr c errors hp]
    rfl
  | succ fuel ih =>
    intro expr c errors h
    cases hp : peekTok toks c with
    | none =>
      simp only [additionLoopF, hp, Option.map]
      rw [additionLoop_end toks expr c errors hp]
    | some t =>
      have hc : c < toks.length := by
        by_contra hcc
        rw [peekTok, List.getElem?_eq_none (by omega)] at hp
        exact absurd hp (by simp)
      cases ho : t.as_addition with
      | none =>
        simp only [additionLoopF, hp, Option.map, ho]
        rw [additionLoop_noop toks expr c errors t hp ho]
      | some op =>
        simp only [additionLoopF, hp, Option.map, ho]
        rw [additionLoop_step toks expr c errors t op hp ho,
          multiplicationF_eq toks fuel (c + 1) errors (by omega)]
        have hu := multiplication_cursor toks (c + 1) errors
        exact ih _ _ _ (by omega)

/-- With enough fuel the fueled `addition` is `addition`. -/
theorem additionF_eq (toks : List Token) (fuel c : Nat)
    (errors : List (AstError × Span)) (h : toks.length ≤ fuel + c) :
    additionF toks fuel c errors = addition toks c errors := by
  unfold additionF addition
  rw [multiplicationF_eq toks fuel c errors h]
  have hu := multiplication_cursor toks c errors
  exact additionLoopF_eq toks fuel _ _ _ (by omega)

/-- With enough fuel the fueled `comparisonLoop` is `comparisonLoop`. -/
theorem comparisonLoopF_eq (toks : List Token) :
    ∀ fuel expr c errors, toks.length < fuel + c →
      comparisonLoopF toks fuel expr c errors = comparisonLoop toks expr c errors := by
  intro fuel
  induction fuel with
  | zero =>
    intro expr c errors h
    have hp : peekTok toks c = none := by
      rw [peekTok]
      exact List.getElem?_eq_none (by omega)
    rw [comparisonLoop_end toks expr c errors hp]
    rfl
  | succ fuel ih =>
    intro expr c errors h
    cases hp : peekTok toks c with
    | none =>
      simp only [comparisonLoopF, hp, Option.map]
      rw [comparisonLoop_end toks expr c errors hp]
    | some t =>
      have hc : c < toks.length := by
        by_contra hcc
        rw [peekTok, List.getElem?_eq_none (by omega)] at hp
        exact absurd hp (by simp)
      cases ho : t.as_comparison with
      | none =>
        simp only [comparisonLoopF, hp, Option.map, ho]
        rw [comparisonLoop_noop toks expr c errors t hp ho]
      | some op =>
        simp only [comparisonLoopF, hp, Option.map, ho]
        rw [comparisonLoop_step toks expr c errors t op hp ho,
          additionF_eq toks fuel (c + 1) errors (by omega)]
        have hu := addition_cursor toks (c + 1) errors
        exact ih _ _ _ (by omega)

/-- With enough fuel the fueled `comparison` is `comparison`. -/
theorem comparisonF_eq (toks : List Token) (fuel c : Nat)
    (errors : List (AstError × Span)) (h : toks.length ≤ fuel + c) :
    comparisonF toks fuel c errors = comparison toks c errors := by
  unfold comparisonF comparison
  rw [additionF_eq toks fuel c errors h]
  have hu := addition_cursor toks c errors
  exact comparisonLoopF_eq toks fuel _ _ _ (by omega)

/-- With enough fuel the fueled `equalityLoop` is `equalityLoop`. -/
theorem equalityLoopF_eq (toks : List Token) :
    ∀ fuel expr c errors, toks.length < fuel + c →
      equalityLoopF toks fuel expr c errors = equalityLoop toks expr c errors := by
  intro fuel
  induction fuel with
  | zero =>
    intro expr c errors h
    have hp : peekTok toks c = none := by
      rw [peekTok]
      exact List.getElem?_eq_none (by omega)
    rw [equalityLoop_end toks expr c errors hp]
    rfl
  | succ fuel ih =>
    intro expr c errors h
    cases hp : peekTok toks c with
    | none =>
      simp only [equalityLoopF, hp, Option.map]
      rw [equalityLoop_end toks expr c errors hp]
    | some t =>
      have hc : c < toks.length := by
        by_contra hcc
        rw [peekTok, List.getElem?_eq_none (by omega)] at hp
        exact absurd hp (by simp)
      cases ho : t.as_equality with
      | none =>
        simp only [equalityLoopF, hp, Option.map, ho]
        rw [equalityLoop_noop toks expr c errors t hp ho]
      | some op =>
        simp only [equalityLoopF, hp, Option.map, ho]
        rw [equalityLoop_step toks expr c errors t op hp ho,
          comparisonF_eq toks fuel (c + 1) errors (by omega)]
        have hu := comparison_cursor toks (c + 1) errors
        exact ih _ _ _ (by omega)

/-- With enough fuel the fueled `equality` is `equality`. -/
theorem equalityF_eq (toks : List Token) (fuel c : Nat)
    (errors : List (AstError × Span)) (h : toks.length ≤ fuel + c) :
    equalityF toks fuel c errors = equality toks c errors := by
  unfold equalityF equality
  rw [comparisonF_eq toks fuel c errors h]
  have hu := comparison_cursor toks c errors
  exact equalityLoopF_eq toks fuel _ _ _ (by omega)

/-- `parse` is its fueled mirror at fuel `length + 1`: the mirror is
structurally recursive, so the kernel can evaluate concrete parses
through this equation. -/
theorem parse_eq (toks : List Token) : parse toks = parseF toks := by
  unfold parse parseF
  rw [equalityF_eq toks (toks.length + 1) 0 [] (by omega)]

end Possum

namespace Possum

/-! ### The claims -/

/-- Claim C1, counterexample to the original statement: parsing the tokens
of `"-1 + 2 * (x - 3)"` does not yield zero parse errors — the grammar has
no parenthesis rule, so the `(` is an unparsable primary. -/
theorem claim_C1_cx : (parse (tokensOf "-1 + 2 * (x - 3)")).2 ≠ [] := by
  rw [parse_eq]
  intro h
  rw [show (parseF (tokensOf "-1 + 2 * (x - 3)")).2 = [(.Unimplemented, ⟨9, 10⟩)]
    from rfl] at h
  exact List.noConfusion h

/-- Claim C1 (amended): lexing `"-1 + 2 * (x - 3)"` yields exactly the ten
tokens `[Minus, Integer 1, Plus, Integer 2, Star, LeftParen,
Identifier "x", Minus, Integer 3, RightParen]` with zero lex errors, and
parsing that sequence yields a root `Binary` `+` whose left child is
`Unary(-, 1)` and whose right child is `Binary(*, 2, Invalid)` — the
`Invalid` node spans the `(`, one `Unimplemented` parse error is recorded
there, and the tokens after the `(` are never reached (the parser has no
grouping rule). -/
theorem claim_C1 :
    lex "-1 + 2 * (x - 3)" =
      [(.ok (.Scalar .Minus), ⟨0, 1⟩),
       (.ok (.Literal (.Integer 1)), ⟨1, 2⟩),
       (.ok (.Scalar .Plus), ⟨3, 4⟩),
       (.ok (.Literal (.Integer 2)), ⟨5, 6⟩),
       (.ok (.Scalar .Star), ⟨7, 8⟩),
       (.ok (.Scalar .LeftParen), ⟨9, 10⟩),
       (.ok (.Identifier "x"), ⟨10, 11⟩),
       (.ok (.Scalar .Minus), ⟨12, 13⟩),
       (.ok (.Literal (.Integer 3)), ⟨14, 15⟩),
       (.ok (.Scalar .RightParen), ⟨15, 16⟩)] ∧
    parse (tokensOf "-1 + 2 * (x - 3)") =
      (⟨.Binary (.mk
          ⟨.Unary (.mk ⟨.Minus, ⟨0, 1⟩⟩ ⟨.Primary (.Literal (.Integer 1)), ⟨1, 2⟩⟩),
            ⟨0, 2⟩⟩
          ⟨.Plus, ⟨3, 4⟩⟩
          ⟨.Binary (.mk ⟨.Primary (.Literal (.Integer 2)), ⟨5, 6⟩⟩ ⟨.Star, ⟨7, 8⟩⟩
            ⟨.Invalid, ⟨9, 10⟩⟩), ⟨5, 10⟩⟩),
        ⟨0, 10⟩⟩,
       [(.Unimplemented, ⟨9, 10⟩)]) := by
  constructor
  · rfl
  · rw [parse_eq]
    rfl

/-- Claim C2, counterexample to the original statement: the `Comment` rule
has no `logos::skip` callback, so `lex` emits a `Scalar Comment` token and
the two inputs do not tokenize identically modulo spans. -/
theorem claim_C2_cx :
    ((Except.ok (.Scalar .Comment) : Except LexError TokenType), (⟨5, 16⟩ : Span)) ∈
      lex "1   +// comment\n 2" ∧
    (lex "1   +// comment\n 2").map Prod.fst ≠ (lex "1+2").map Prod.fst := by
  constructor
  · rw [show lex "1   +// comment\n 2" =
      [(.ok (.Literal (.Integer 1)), ⟨0, 1⟩), (.ok (.Scalar .Plus), ⟨4, 5⟩),
       (.ok (.Scalar .Comment), ⟨5, 16⟩), (.ok (.Literal (.Integer 2)), ⟨17, 18⟩)]
      from rfl]
    simp
  · intro h
    rw [show (lex "1   +// comment\n 2").map Prod.fst =
        [.ok (.Literal (.Integer 1)), .ok (.Scalar .Plus), .ok (.Scalar .Comment),
         .ok (.Literal (.Integer 2))] from rfl,
      show (lex "1+2").map Prod.fst =
        [.ok (.Literal (.Integer 1)), .ok (.Scalar .Plus),
         .ok (.Literal (.Integer 2))] from rfl] at h
    exact absurd h (by decide)

/-- Claim C2 (amended): whitespace is discarded, but a comment (`//` to end
of line) is emitted as a `Scalar Comment` token: `"1   +// comment\n 2"`
lexes to `[Integer 1, Plus, Comment, Integer 2]`, and only after dropping
the `Comment` token does its token sequence match that of `"1+2"` modulo
spans. -/
theorem claim_C2 :
    lex "1   +// comment\n 2" =
      [(.ok (.Literal (.Integer 1)), ⟨0, 1⟩), (.ok (.Scalar .Plus), ⟨4, 5⟩),
       (.ok (.Scalar .Comment), ⟨5, 16⟩), (.ok (.Literal (.Integer 2)), ⟨17, 18⟩)] ∧
    ((lex "1   +// comment\n 2").filter
        (fun t => t.1 ≠ .ok (.Scalar .Comment))).map Prod.fst =
      (lex "1+2").map Prod.fst := by
  exact ⟨rfl, rfl⟩

/-- Claim C3, counterexample to the original statement: on a token sequence
whose spans are not monotone, a constructed `Binary` node's span does not
contain its children's spans (the parser copies bounds blindly, so the
aggregate span `5..2` of the root fails to contain `5..6` and `1..2`). -/
theorem claim_C3_cx :
    containsOk (parse [⟨.Literal (.Integer 1), ⟨5, 6⟩⟩, ⟨.Scalar .Plus, ⟨0, 1⟩⟩,
      ⟨.Literal (.Integer 2), ⟨1, 2⟩⟩]).1 = false := by
  rw [parse_eq]
  rfl

/-- Claim C3 (amended): for every token sequence, every `Binary`/`Unary`
node of the parsed tree has its span start exactly equal to its leftmost
constituent's start (the left operand for `Binary`, the operator for
`Unary`) and its span end exactly equal to its rightmost child's end; full
containment of the children's spans does not follow when token spans are
not monotone. -/
theorem claim_C3 (toks : List Token) : spansEqOk (parse toks).1 = true := by
  simp only [parse]
  exact equality_spansEq toks 0 []

/-- Claim C4: when `primary` finds neither a literal nor an identifier it
records exactly one `Unimplemented` error, unconditionally consumes one
position, and yields an `Invalid` node spanning the consumed token (span
`0..0` when the input is exhausted); in particular parsing the single
token `LeftBrace` terminates with cursor 1, an `Invalid` root spanning it,
and exactly one error. -/
theorem claim_C4 :
    (∀ (toks : List Token) (c : Nat) (errors : List (AstError × Span)),
      primaryMiss (peekTok toks c) = true →
      primary toks c errors =
        (⟨.Invalid, ((peekTok toks c).map Token.span).getD ⟨0, 0⟩⟩, c + 1,
          errors ++ [(.Unimplemented, ((peekTok toks c).map Token.span).getD ⟨0, 0⟩)])) ∧
    parse [⟨.Scalar .LeftBrace, ⟨0, 1⟩⟩] =
      (⟨.Invalid, ⟨0, 1⟩⟩, [(.Unimplemented, ⟨0, 1⟩)]) ∧
    (equality [⟨.Scalar .LeftBrace, ⟨0, 1⟩⟩] 0 []).2.1 = 1 := by
  refine ⟨fun toks c errors hp => primary_miss toks c errors hp, ?_, ?_⟩
  · rw [parse_eq]
    rfl
  · rw [← equalityF_eq [⟨.Scalar .LeftBrace, ⟨0, 1⟩⟩] 2 0 [] (by simp)]
    rfl

/-- Claim C4, witness: the recovery equation applied at an exhausted input. -/
theorem claim_C4_witness :
    primaryMiss (peekTok ([] : List Token) 0) = true ∧
    primary ([] : List Token) 0 [] =
      (⟨.Invalid, ⟨0, 0⟩⟩, 1, [(.Unimplemented, ⟨0, 0⟩)]) :=
  ⟨rfl, claim_C4.1 [] 0 [] rfl⟩

/-- Claim C5: parsing any finite token sequence terminates with a root
expression and an error list of length at most one more than the token
count — it never fails outright. -/
theorem claim_C5 (toks : List Token) :
    ∃ e errs, parse toks = (e, errs) ∧ errs.length ≤ toks.length + 1 := by
  refine ⟨(parse toks).1, (parse toks).2, rfl, ?_⟩
  have h1 := equality_errlen toks 0 []
  have h2 := equality_cursor_le toks 0 [] (by omega)
  simp only [List.length_nil] at h1
  simp only [parse]
  omega

/-- Claim C6: parsing the tokens of `"1 - 2 - 3"` yields the
left-associated tree `Binary(Binary(1, -, 2), -, 3)`, and in general each
binary level folds `expr = Binary(expr, op, next_level())` while an
operator of that level is the lookahead (shown here for the `addition`
level, whose next level is `multiplication`). -/
theorem claim_C6 :
    parse (tokensOf "1 - 2 - 3") =
      (⟨.Binary (.mk
          ⟨.Binary (.mk ⟨.Primary (.Literal (.Integer 1)), ⟨0, 1⟩⟩ ⟨.Minus, ⟨2, 3⟩⟩
            ⟨.Primary (.Literal (.Integer 2)), ⟨4, 5⟩⟩), ⟨0, 5⟩⟩
          ⟨.Minus, ⟨6, 7⟩⟩
          ⟨.Primary (.Literal (.Integer 3)), ⟨8, 9⟩⟩), ⟨0, 9⟩⟩, []) ∧
    (∀ (toks : List Token) (expr : Expr) (c : Nat)
      (errors : List (AstError × Span)) (t : Token) (op : SpSc),
      peekTok toks c = some t → t.as_addition = some op →
      additionLoop toks expr c errors =
        additionLoop toks
          ⟨.Binary (.mk expr op (multiplication toks (c + 1) errors).1),
            ⟨expr.span.start, (multiplication toks (c + 1) errors).1.span.stop⟩⟩
          (multiplication toks (c + 1) errors).2.1
          (multiplication toks (c + 1) errors).2.2) := by
  constructor
  · rw [parse_eq]
    rfl
  · exact fun toks expr c errors t op hp ho =>
      additionLoop_step toks expr c errors t op hp ho

/-- Claim C6, witness: the fold equation applied at a concrete `-`
lookahead. -/
theorem claim_C6_witness :
    peekTok [⟨.Scalar .Minus, ⟨0, 1⟩⟩] 0 = some ⟨.Scalar .Minus, ⟨0, 1⟩⟩ ∧
    additionLoop [⟨.Scalar .Minus, ⟨0, 1⟩⟩] ⟨.Invalid, ⟨0, 0⟩⟩ 0 [] =
      additionLoop [⟨.Scalar .Minus, ⟨0, 1⟩⟩]
        ⟨.Binary (.mk ⟨.Invalid, ⟨0, 0⟩⟩ ⟨.Minus, ⟨0, 1⟩⟩
          (multiplication [⟨.Scalar .Minus, ⟨0, 1⟩⟩] 1 []).1),
          ⟨0, (multiplication [⟨.Scalar .Minus, ⟨0, 1⟩⟩] 1 []).1.span.stop⟩⟩
        (multiplication [⟨.Scalar .Minus, ⟨0, 1⟩⟩] 1 []).2.1
        (multiplication [⟨.Scalar .Minus, ⟨0, 1⟩⟩] 1 []).2.2 :=
  ⟨rfl, claim_C6.2 [⟨.Scalar .Minus, ⟨0, 1⟩⟩] ⟨.Invalid, ⟨0, 0⟩⟩ 0 []
    ⟨.Scalar .Minus, ⟨0, 1⟩⟩ ⟨.Minus, ⟨0, 1⟩⟩ rfl rfl⟩

/-- Claim C7: maximal munch and priority tie-breaking — `"letter"` lexes as
the single token `Identifier "letter"` (not `Let` then `Identifier "ter"`),
and `"=="` lexes as the single `Equal` token (not two `Assign` tokens). -/
theorem claim_C7 :
    lex "letter" = [(.ok (.Identifier "letter"), ⟨0, 6⟩)] ∧
    lex "==" = [(.ok (.Scalar .Equal), ⟨0, 2⟩)] :=
  ⟨rfl, rfl⟩

/-- Claim C8: escape decoding — `\x41` inside a string literal decodes to
`"A"`; a `\xZZ` escape fails with `InvalidEscape` carrying the offending
text `\xZ` (the octal-digit check rejects the first `Z`); a lone trailing
backslash (escape cut short at end of input) fails with `InvalidEscape`
carrying `\`. -/
theorem claim_C8 :
    parse_str "\"\\x41\"".data = .ok "A" ∧
    lex "\"\\x41\"" = [(.ok (.Literal (.String "A")), ⟨0, 6⟩)] ∧
    parse_str "\"\\xZZ\"".data = .error (.InvalidEscape "\\xZ") ∧
    lex "\"\\xZZ\"" = [(.error (.InvalidEscape "\\xZ"), ⟨0, 6⟩)] ∧
    parse_str ['"', '\\', '"'] = .error (.InvalidEscape "\\") :=
  ⟨rfl, rfl, rfl, rfl, rfl⟩

/-- Claim C9: for every `u64`-representable value and each supported radix,
lexing the rendered literal text decodes back to the same integer; a
rendered value at or above `2 ^ 64` lexes to an `InvalidInteger` error;
embedded `_` separators are stripped before radix parsing. -/
theorem claim_C9 (n : Nat) :
    lex (String.mk (renderDec n)) =
      [(if n < 2 ^ 64 then .ok (.Literal (.Integer n)) else .error .InvalidInteger,
        ⟨0, (renderDec n).length⟩)] ∧
    lex (String.mk (renderHex n)) =
      [(if n < 2 ^ 64 then .ok (.Literal (.Integer n)) else .error .InvalidInteger,
        ⟨0, (renderHex n).length⟩)] ∧
    lex (String.mk (renderOct n)) =
      [(if n < 2 ^ 64 then .ok (.Literal (.Integer n)) else .error .InvalidInteger,
        ⟨0, (renderOct n).length⟩)] ∧
    lex (String.mk (renderBin n)) =
      [(if n < 2 ^ 64 then .ok (.Literal (.Integer n)) else .error .InvalidInteger,
        ⟨0, (renderBin n).length⟩)] ∧
    lex "1_000" = [(.ok (.Literal (.Integer 1000)), ⟨0, 5⟩)] :=
  ⟨lex_render_dec n, lex_render_hex n, lex_render_oct n, lex_render_bin n, rfl⟩

/-- Claim C10: `lex` never produces an `InvalidFloat` error, and every
lexeme matched by the float rule still parses as an `f64` after underscore
stripping, so the `InvalidFloat` branch is unreachable. -/
theorem claim_C10 :
    (∀ source : String, hasInvalidFloat (lex source) = false) ∧
    (∀ (c : Char) (cs : List Char) (n : Nat), matchFloat c cs = some n →
      parse_float (c :: cs.take n) =
        .ok (.Float (String.mk (filter_underscores (c :: cs.take n))))) := by
  constructor
  · exact fun source => lexLoop_no_float source.data.length source.data 0
  · intro c cs n h
    simp only [parse_float]
    rw [if_pos (matchFloat_valid c cs n h)]

/-- Claim C10, witness: the float-rule lexeme `1.5` decodes successfully. -/
theorem claim_C10_witness :
    hasInvalidFloat (lex "1.5e+3") = false ∧
    matchFloat '1' ['.', '5'] = some 2 ∧
    parse_float ['1', '.', '5'] = .ok (.Float "1.5") :=
  ⟨claim_C10.1 "1.5e+3", rfl, claim_C10.2 '1' ['.', '5'] 2 rfl⟩

end Possum
